import Mathlib

/-!
# pocdoc: declaration tree builder and markdown renderer

A shallow embedding of `src/pocdoc.h`.

Conventions of the embedding.

* A `std::string` is a Lean `String` read one `Char` per C `char`; the text
  operations work on the character list `String.data`.
* `unsigned` values are natural numbers below `2 ^ 32`; a decrement that can
  wrap is written with `dec32`.
* A function whose C++ execution can leave defined behaviour (an out-of-range
  `lines[i]`, a dereferenced null pointer, an overflowing `sprintf`), fail an
  `assert`, or never return, has an `Option` result and `none` stands for every
  such run.
* `std::map<QualifiedName, std::unique_ptr<Node>>` is a list of key/node pairs
  kept in ascending key order by the inserting operations; iteration over the
  map is iteration over the list.
* The member `compiled` (the output fragments) is threaded through the
  rendering functions as an explicit argument and result.
-/

namespace pocdoc

/-! ## Cursor kinds and access specifiers (the part of `clang-c/Index.h` the code names) -/

/-- Cursor kinds named by the source; every kind the source never names is `Other`
and falls into the `default:` branch of each `switch`. -/
inductive CXCursorKind where
  | StructDecl
  | UnionDecl
  | ClassDecl
  | EnumDecl
  | FieldDecl
  | EnumConstantDecl
  | FunctionDecl
  | VarDecl
  | TypedefDecl
  | CXXMethod
  | Namespace
  | Constructor
  | Destructor
  | FunctionTemplate
  | ClassTemplate
  | ClassTemplatePartialSpecialization
  | UsingDeclaration
  | TypeAliasDecl
  | TypeAliasTemplateDecl
  | TranslationUnit
  | Other
deriving DecidableEq, Repr

/-- The C++ access specifier of a declaration. -/
inductive CX_CXXAccessSpecifier where
  | InvalidAccessSpecifier
  | Public
  | Protected
  | Private
deriving DecidableEq, Repr

open CXCursorKind CX_CXXAccessSpecifier

def isclass : CXCursorKind → Bool
  | ClassDecl => true
  | ClassTemplate => true
  | ClassTemplatePartialSpecialization => true
  | _ => false

def iscontainer : CXCursorKind → Bool
  | StructDecl => true
  | UnionDecl => true
  | ClassDecl => true
  | ClassTemplate => true
  | ClassTemplatePartialSpecialization => true
  | EnumDecl => true
  | EnumConstantDecl => true
  | _ => false

def isfunc : CXCursorKind → Bool
  | CXXMethod => true
  | FunctionDecl => true
  | FunctionTemplate => true
  | Constructor => true
  | Destructor => true
  | _ => false

def isdecl (kind : CXCursorKind) : Bool :=
  if iscontainer kind || isfunc kind then true
  else match kind with
    | FieldDecl => true
    | UsingDeclaration => true
    | TypedefDecl => true
    | TypeAliasDecl => true
    | TypeAliasTemplateDecl => true
    | VarDecl => true
    | _ => false

/-- The category label; `none` is the `nullptr` of a kind that is not printed. -/
def decl_str : CXCursorKind → Option String
  | StructDecl => some "Struct"
  | UnionDecl => some "Union"
  | EnumDecl => some "Enum"
  | EnumConstantDecl => some "Enum Constant"
  | ClassDecl => some "Class"
  | ClassTemplate => some "Class"
  | CXXMethod => some "Function"
  | FunctionDecl => some "Function"
  | FunctionTemplate => some "Function"
  | Constructor => some "Constructor"
  | Destructor => some "Destructor"
  | UsingDeclaration => some "Using"
  | TypedefDecl => some "Typedef"
  | TypeAliasDecl => some "Type Alias"
  | TypeAliasTemplateDecl => some "Type Alias"
  | VarDecl => some "Variable"
  | FieldDecl => some "Field"
  | _ => none

/-! ## Strings -/

/-- The decrement of an `unsigned`: `0` wraps to `2 ^ 32 - 1`. -/
def dec32 (n : Nat) : Nat := (n + (2 ^ 32 - 1)) % 2 ^ 32

/-- The increment of an `unsigned`. -/
def inc32 (n : Nat) : Nat := (n + 1) % 2 ^ 32

/-- The `std::find_if` of `ltrim` and `rtrim`: the predicate counts the matching
characters down and holds at the first character that does not match or at
which the count has gone below zero. The result is the text from that character on. -/
def trim_find_if (ch : List Char) : Int → List Char → List Char
  | _, [] => []
  | count, c :: cs =>
    let isMatch := ch.contains c
    let count := if isMatch then count - 1 else count
    if !isMatch || count < 0 then c :: cs else trim_find_if ch count cs

/-- The four-argument `ltrim(str, count, ch...)`. -/
def ltrim_count (str : String) (count : Int) (ch : List Char) : String :=
  let count := if count = -1 then (str.data.length : Int) + 1 else count
  ⟨trim_find_if ch count str.data⟩

/-- The overload `ltrim(str, ch...)`. -/
def ltrim (str : String) (ch : List Char) : String := ltrim_count str (-1) ch

/-- The four-argument `rtrim(str, count, ch...)`: the same search from the end. -/
def rtrim_count (str : String) (count : Int) (ch : List Char) : String :=
  let count := if count = -1 then (str.data.length : Int) + 1 else count
  ⟨(trim_find_if ch count str.data.reverse).reverse⟩

/-- The overload `rtrim(str, ch...)`. -/
def rtrim (str : String) (ch : List Char) : String := rtrim_count str (-1) ch

/-- The test `line.rfind("//", 0) != 0` of `find_doc` is `!starts_with line "//"`:
`rfind` with position `0` can only match at index `0`. -/
def starts_with (line pat : String) : Bool := pat.data.isPrefixOf line.data

/-- A comment line: after `ltrim(line, ' ', '\t')` the line begins with `//`. -/
def is_comment_line (l : String) : Bool := starts_with (ltrim l [' ', '\t']) "//"

/-- What `printf` reads through `s.c_str()` for a `%s`: the text before the first NUL. -/
def c_str (s : String) : String := ⟨s.data.takeWhile (fun c => c != '\x00')⟩

/-- The constructor `std::string(n, ' ')`. -/
def spaces (n : Nat) : String := ⟨List.replicate n ' '⟩

/-- The comparison of `std::string` keys: lexicographic on the characters. -/
def key_lt : List Char → List Char → Bool
  | [], [] => false
  | [], _ :: _ => true
  | _ :: _, [] => false
  | a :: as, b :: bs => decide (a.toNat < b.toNat) || (decide (a.toNat = b.toNat) && key_lt as bs)

/-! ## Data model -/

structure SourceRange where
  line_start : Nat
  line_end : Nat
deriving DecidableEq, Repr

/-- A node of the declaration tree; `children` is the `NodeMap` of the node. -/
inductive Node where
  | mk (name : String) (qualified_name : String) (kind : CXCursorKind)
      (access : CX_CXXAccessSpecifier) (decl_range : SourceRange)
      (doc_range : Option SourceRange) (children : List (String × Node))

abbrev QualifiedName := String

abbrev NodeMap := List (QualifiedName × Node)

namespace Node

def name : Node → String
  | mk n _ _ _ _ _ _ => n

def qualified_name : Node → String
  | mk _ q _ _ _ _ _ => q

def kind : Node → CXCursorKind
  | mk _ _ k _ _ _ _ => k

def access : Node → CX_CXXAccessSpecifier
  | mk _ _ _ a _ _ _ => a

def decl_range : Node → SourceRange
  | mk _ _ _ _ r _ _ => r

def doc_range : Node → Option SourceRange
  | mk _ _ _ _ _ d _ => d

def children : Node → NodeMap
  | mk _ _ _ _ _ _ c => c

/-- The node with another children map, every other member kept. -/
def with_children : Node → NodeMap → Node
  | mk n q k a r d _, c => mk n q k a r d c

end Node

structure Options where
  include_private : Bool := false
  build_toc : Bool := true
  verbose : Bool := false
  output_dir : String := ""
  trim_path_prefix : String := ""

/-! ## The map operations of `std::map` used by the code -/

namespace NodeMap

/-- The operation `map.find(name)`: the node bound to the key, if any. -/
def lookup (name : QualifiedName) : NodeMap → Option Node
  | [] => none
  | (k, n) :: rest => if k = name then some n else lookup name rest

/-- Puts a new binding at its place in the key order. -/
def ordered_insert (name : QualifiedName) (node : Node) : NodeMap → NodeMap
  | [] => [(name, node)]
  | (k, n) :: rest =>
    if key_lt name.data k.data then (name, node) :: (k, n) :: rest
    else (k, n) :: ordered_insert name node rest

/-- The operation `map.insert({name, node})`: nothing happens when the key is bound. -/
def insert (name : QualifiedName) (node : Node) (m : NodeMap) : NodeMap :=
  match lookup name m with
  | some _ => m
  | none => ordered_insert name node m

/-- Overwrites the node bound to an existing key. -/
def replace (name : QualifiedName) (node : Node) : NodeMap → NodeMap
  | [] => []
  | (k, n) :: rest =>
    if k = name then (k, node) :: rest else (k, n) :: replace name node rest

/-- The assignment `map[name] = node`. -/
def assign (name : QualifiedName) (node : Node) (m : NodeMap) : NodeMap :=
  match lookup name m with
  | some _ => replace name node m
  | none => ordered_insert name node m

end NodeMap

/-! ## Comment locator, signature reconstructor, comment text -/

/-- The loop of `find_doc`. The state is `linenum`, `repeat`, `end` and
`found_comment`; the loop test `linenum >= 0` is always true of an `unsigned`.
The first argument bounds the number of iterations; `find_doc` passes a bound
that a run on fewer than `2 ^ 32` lines cannot reach. `some none` is the empty
optional. Leaving the loop through its test with `found_comment` set would
return the uninitialised `start`, which is `none`. -/
def find_doc_loop (lines : List String) :
    Nat → Nat → Nat → Nat → Bool → Option (Option SourceRange)
  | 0, _, _, _, _ => none
  | fuel + 1, linenum, rep, end_, found_comment =>
    if rep < 2 then
      match lines[linenum]? with
      | none => none
      | some l =>
        let line := ltrim l [' ', '\t']
        if !starts_with line "//" then
          if found_comment then
            some (some ⟨inc32 linenum, end_⟩)
          else
            find_doc_loop lines fuel (dec32 linenum) (rep + 1) (dec32 end_) found_comment
        else
          find_doc_loop lines fuel (dec32 linenum) rep end_ true
    else if !found_comment then some none
    else none

/-- The method `Header::find_doc`; `linenum` is the 1-based line the declaration starts on. -/
def find_doc (lines : List String) (linenum : Nat) : Option (Option SourceRange) :=
  let linenum := dec32 linenum
  if linenum ≥ lines.length then some none
  else find_doc_loop lines (lines.length + 2) linenum 0 linenum false

/-- The loop of `parse_source` from index `i`; the third argument is the line
store from index `i` on, so that its head is `lines[i]`. -/
def parse_source_loop (indent_str : String) (end_ : Nat) :
    Nat → List String → String → String
  | _, [], result => result
  | i, l :: rest, result =>
    if i < end_ then
      let line := rtrim (ltrim l ['\t']) [';']
      if line.data.contains '\x7b' then
        result ++ (indent_str ++ rtrim line ['\x7b', ' '])
      else
        let result := result ++ (indent_str ++ line)
        let result := if i < end_ - 1 then result.push '\n' else result
        parse_source_loop indent_str end_ (i + 1) rest result
    else result

/-- The method `Header::parse_source`; `none` is a failed `assert`. -/
def parse_source (lines : List String) (start end_ : Nat) (indent : Nat) : Option String :=
  if start < lines.length ∧ end_ < lines.length then
    some (parse_source_loop (spaces indent) end_ (dec32 start) (lines.drop (dec32 start)) "")
  else none

/-- The loop of `parse_comment` from index `ln`; the third argument is the line
store from index `ln` on. An empty store at a line still in the range is an
out-of-range read; an `ln` that would wrap keeps the loop running for ever. -/
def parse_comment_loop (line_end : Nat) : Nat → List String → String → Option String
  | ln, [], comment => if ln ≤ line_end then none else some comment
  | ln, l :: rest, comment =>
    if ln ≤ line_end then
      let line := ltrim_count (ltrim_count (ltrim l [' ', '\t']) 3 ['/']) 1 [' ']
      if line.data.isEmpty then
        if ln + 1 < 2 ^ 32 then
          parse_comment_loop line_end (ln + 1) rest ((comment.push '\n').push '\n')
        else none
      else
        let line := if ln < line_end then line.push ' ' else line
        if ln + 1 < 2 ^ 32 then
          parse_comment_loop line_end (ln + 1) rest (comment ++ line)
        else none
    else some comment

/-- The method `Header::parse_comment`. -/
def parse_comment (lines : List String) (range : SourceRange) : Option String :=
  parse_comment_loop range.line_end range.line_start (lines.drop range.line_start) ""

/-! ## Declaration tree builder -/

mutual
/-- The recursive part of `Header::find`: the loop over the entries of a map,
searching the children of each entry in turn. -/
def find_loop (name : QualifiedName) : NodeMap → Option Node
  | [] => none
  | (_, parent) :: rest =>
    match find_in name parent with
    | some node => some node
    | none => find_loop name rest
/-- The call `find(parent->children, name)`. -/
def find_in (name : QualifiedName) : Node → Option Node
  | .mk _ _ _ _ _ _ children =>
    match NodeMap.lookup name children with
    | some node => some node
    | none => find_loop name children
end

/-- The method `Header::find`; the result is the node the returned pointer
points to, `none` for `nullptr`. -/
def find (map : NodeMap) (name : QualifiedName) : Option Node :=
  match NodeMap.lookup name map with
  | some node => some node
  | none => find_loop name map

mutual
/-- The tree after the node that `find_loop` points to is overwritten with its image under `f`. -/
def find_update_loop (name : QualifiedName) (f : Node → Node) : NodeMap → Option NodeMap
  | [] => none
  | (k, parent) :: rest =>
    match find_update_in name f parent with
    | some parent' => some ((k, parent') :: rest)
    | none =>
      match find_update_loop name f rest with
      | some rest' => some ((k, parent) :: rest')
      | none => none
/-- The node after the node that `find_in` points to is overwritten with its image under `f`. -/
def find_update_in (name : QualifiedName) (f : Node → Node) : Node → Option Node
  | .mk n q kd a r d children =>
    match NodeMap.lookup name children with
    | some node => some (.mk n q kd a r d (NodeMap.replace name (f node) children))
    | none =>
      match find_update_loop name f children with
      | some children' => some (.mk n q kd a r d children')
      | none => none
end

/-- A write through the pointer that `Header::find` returns: the tree in which
the node found is replaced by its image under `f`; `none` when `find` returns
`nullptr`, which the caller dereferences. -/
def find_update (map : NodeMap) (name : QualifiedName) (f : Node → Node) : Option NodeMap :=
  match NodeMap.lookup name map with
  | some node => some (NodeMap.replace name (f node) map)
  | none => find_update_loop name f map

/-- The method `Header::insert` on the member `declarations`. The cursor
contributes the kind of its semantic parent and the qualified name
`get_qualified_name(parent)`. -/
def insert (declarations : NodeMap) (parent_kind : CXCursorKind)
    (parent_name : QualifiedName) (node : Node) : Option NodeMap :=
  match NodeMap.lookup node.qualified_name declarations with
  | some current =>
    if current.doc_range.isSome then some declarations
    else some (NodeMap.assign node.qualified_name node declarations)
  | none =>
    if isfunc parent_kind then some declarations
    else if iscontainer parent_kind then
      find_update declarations parent_name
        (fun parent_node =>
          parent_node.with_children
            (NodeMap.insert node.qualified_name node parent_node.children))
    else some (NodeMap.insert node.qualified_name node declarations)

/-! ## Document renderer -/

/-- The call `snprintf(sbuf, size, ...)` on the expanded text: at most `size - 1` characters. -/
def snprintf (size : Nat) (expanded : String) : String := ⟨expanded.data.take (size - 1)⟩

/-- The template `Header::append(fmt, args...)`, given the expansion of the
format: `snprintf(sbuf, sizeof(sbuf)-1, ...)` with `char sbuf[512]`. -/
def append_fmt (compiled : List String) (expanded : String) : List String :=
  compiled ++ [snprintf 511 expanded]

/-- The overload `Header::append(const char *s)`. -/
def append (compiled : List String) (s : String) : List String := compiled ++ [s]

/-- The comparison passed to `std::sort` in `append_child_nodes` orders by
`decl_range.line_start`. `std::sort` leaves the order of nodes that start on
the same line open; this is the arrangement that keeps their map order. -/
def sort_by_line_start (nodes : List Node) : List Node :=
  nodes.insertionSort (fun lhs rhs => lhs.decl_range.line_start ≤ rhs.decl_range.line_start)

/-- The access header emitted in front of a member whose access differs from the current one. -/
def access_header (parent_kind : CXCursorKind) (access : CX_CXXAccessSpecifier)
    (compiled : List String) : List String :=
  if access = Public ∧ isclass parent_kind = true then append compiled "public:\n"
  else if access = Protected then append compiled "protected:\n"
  else if access = Private then append compiled "private:\n"
  else compiled

/-- The `for` loop of `append_child_nodes` over `sorted_nodes`, with the local
state `parsed_decl` and `access`. -/
def child_nodes_loop (lines : List String) (options : Options) (parent_kind : CXCursorKind)
    (indent : Nat) : List Node → List Nat → CX_CXXAccessSpecifier → List String →
    Option (List String)
  | [], _, _, compiled => some compiled
  | node :: rest, parsed_decl, access, compiled =>
    if !options.include_private && node.access == Private then
      child_nodes_loop lines options parent_kind indent rest parsed_decl access compiled
    else if parsed_decl.contains node.decl_range.line_start then
      child_nodes_loop lines options parent_kind indent rest parsed_decl access compiled
    else
      match parse_source lines node.decl_range.line_start node.decl_range.line_end indent with
      | none => none
      | some formatted =>
        let semi := if node.kind = EnumConstantDecl then "" else ";"
        let lf := if node.kind = EnumConstantDecl then "" else "\n"
        let compiled :=
          if node.access ≠ access then access_header parent_kind node.access compiled
          else compiled
        child_nodes_loop lines options parent_kind indent rest
          (node.decl_range.line_start :: parsed_decl) node.access
          (append_fmt compiled (c_str formatted ++ semi ++ lf ++ "\n"))

/-- The end of `append_child_nodes`: the last fragment loses its final
character when the character before it is a newline. -/
def remove_extra_line_ending (compiled : List String) : List String :=
  match compiled.getLast? with
  | none => compiled
  | some last =>
    if last.data.length > 1 ∧ last.data[last.data.length - 2]? = some '\n' then
      compiled.dropLast ++ [⟨last.data.dropLast⟩]
    else compiled

/-- The body of `append_child_nodes` once `sorted_nodes` is sorted. -/
def append_child_nodes_sorted (lines : List String) (options : Options)
    (parent_kind : CXCursorKind) (sorted_nodes : List Node) (indent : Nat)
    (compiled : List String) : Option (List String) :=
  match child_nodes_loop lines options parent_kind indent sorted_nodes []
      InvalidAccessSpecifier compiled with
  | none => none
  | some compiled => some (remove_extra_line_ending compiled)

/-- The method `Header::append_child_nodes`. -/
def append_child_nodes (lines : List String) (options : Options) (parent : Node)
    (indent : Nat) (compiled : List String) : Option (List String) :=
  append_child_nodes_sorted lines options parent.kind
    (sort_by_line_start (parent.children.map Prod.snd)) indent compiled

/-- The method `Header::append_decl`. -/
def append_decl (lines : List String) (pre kind : String) (node : Node)
    (compiled : List String) : Option (List String) :=
  match parse_source lines node.decl_range.line_start node.decl_range.line_end 0 with
  | none => none
  | some formatted =>
    let semi := if node.kind = EnumConstantDecl then "" else ";"
    let compiled := append_fmt compiled
      (pre ++ " " ++ kind ++ " `" ++ c_str node.qualified_name ++ "`\n\n")
    let compiled := append compiled "```cpp\n"
    let compiled := append_fmt compiled (c_str formatted ++ semi ++ "\n")
    some (append compiled "```\n")

/-- The loop of `append_fields` over the children, with the flag `has_fields`.
The `doc_range.value()` of an empty optional is not reached. -/
def append_fields_loop (lines : List String) :
    NodeMap → List String → Bool → Option (List String × Bool)
  | [], compiled, has_fields => some (compiled, has_fields)
  | (_, node) :: rest, compiled, has_fields =>
    if node.kind != FieldDecl || node.doc_range.isNone then
      append_fields_loop lines rest compiled has_fields
    else
      match node.doc_range with
      | none => none
      | some range =>
        match parse_comment lines range with
        | none => none
        | some comment =>
          append_fields_loop lines rest
            (append_fmt compiled ("* `" ++ c_str node.name ++ "`  " ++ c_str comment ++ "\n"))
            true

/-- The method `Header::append_fields`. -/
def append_fields (lines : List String) (parent : Node) (compiled : List String) :
    Option (List String) :=
  match append_fields_loop lines parent.children (append compiled "#### Member Variables\n")
      false with
  | none => none
  | some (compiled, has_fields) =>
    if !has_fields then some compiled.dropLast
    else some (append compiled "\n")

/-- The `sprintf(buffer, ...)` of `build_toc` into `static char buffer[512]`:
an expansion of 512 characters or more writes past the buffer. -/
def sprintf512 (expanded : String) : Option String :=
  if expanded.data.length < 512 then some expanded else none

mutual
/-- The method `Header::build_toc`: the loop over the map. -/
def build_toc (depth : Nat) : NodeMap → List String → Option (List String)
  | [], toc => some toc
  | (_, node) :: rest, toc =>
    match build_toc_node depth node toc with
    | none => none
    | some toc => build_toc depth rest toc
/-- One iteration of the loop of `Header::build_toc`. -/
def build_toc_node (depth : Nat) : Node → List String → Option (List String)
  | .mk name qualified_name kind _ _ doc_range children, toc =>
    if doc_range.isNone && !iscontainer kind then some toc
    else if kind = FieldDecl then some toc
    else
      match decl_str kind with
      | none => some toc
      | some kstr =>
        if name = "" then some toc
        else
          let link := kstr ++ "-" ++ qualified_name
          match sprintf512 (c_str (spaces (depth * 4)) ++ "* [" ++ c_str name ++ "](#"
              ++ c_str link ++ ")\n") with
          | none => none
          | some entry =>
            let toc := toc ++ [entry]
            if children.length > 0 then build_toc (depth + 1) children toc
            else some toc
end

mutual
/-- The method `Header::build(NodeMap &declmap, int depth)`: the loop over the map. -/
def build_map (lines : List String) (options : Options) (depth : Nat) :
    NodeMap → List String → Option (List String)
  | [], compiled => some compiled
  | (_, node) :: rest, compiled =>
    match build_node lines options depth node compiled with
    | none => none
    | some compiled => build_map lines options depth rest compiled
/-- One iteration of the loop of `Header::build(NodeMap &declmap, int depth)`. -/
def build_node (lines : List String) (options : Options) (depth : Nat) :
    Node → List String → Option (List String)
  | .mk name qualified_name kind access decl_range doc_range children, compiled =>
    let node := Node.mk name qualified_name kind access decl_range doc_range children
    match decl_str kind with
    | none => some compiled
    | some kstr =>
      if !options.include_private && access == Private then some compiled
      else if iscontainer kind && decl_range.line_start != decl_range.line_end then
        match parse_source lines decl_range.line_start decl_range.line_end 0 with
        | none => none
        | some formatted =>
          let pre := if depth = 0 then "##" else "###"
          let compiled := append_fmt compiled
            (pre ++ " " ++ kstr ++ " `" ++ c_str qualified_name ++ "`\n\n")
          let compiled := append compiled "```cpp\n"
          let compiled := append_fmt compiled (c_str formatted ++ " \x7b\n")
          match append_child_nodes lines options node 4 compiled with
          | none => none
          | some compiled =>
            let compiled := append compiled "\x7d;\n"
            let compiled := append compiled "```\n"
            let commented :=
              match doc_range with
              | none => some compiled
              | some range =>
                match parse_comment lines range with
                | none => none
                | some comment => some (append_fmt compiled (c_str comment ++ "\n\n"))
            match commented with
            | none => none
            | some compiled =>
              match append_fields lines node compiled with
              | none => none
              | some compiled =>
                match build_map lines options (depth + 1) children compiled with
                | none => none
                | some compiled =>
                  if depth = 0 then some (append compiled "\n---\n\n") else some compiled
      else
        match doc_range with
        | none => some compiled
        | some range =>
          if kind = FieldDecl then some compiled
          else
            match parse_comment lines range with
            | none => none
            | some comment =>
              match append_decl lines (if depth = 0 then "##" else "###") kstr node compiled with
              | none => none
              | some compiled => some (append_fmt compiled (c_str comment ++ "\n\n"))
end

/-- The state of a `Header` object. -/
structure Header where
  filename : String
  compiled : List String
  lines : List String
  declarations : NodeMap
  options : Options

/-- The method `Header::build()`: the header after the call; the reference it
returns is to the member `compiled` of that header. -/
def Header.build (h : Header) : Option Header :=
  let compiled := append_fmt h.compiled ("# " ++ c_str h.filename ++ "\n\n")
  match build_map h.lines h.options 0 h.declarations compiled with
  | none => none
  | some compiled =>
    if h.options.build_toc then
      match build_toc 0 h.declarations [] with
      | none => none
      | some toc =>
        let toc := toc ++ ["\n---\n\n"]
        some { h with compiled := compiled.take 1 ++ toc ++ compiled.drop 1 }
    else some { h with compiled := compiled }

/-! ## Definitions used to state the properties of the renderer -/

/-- Every element of a list of optional results, or `none` when one of them is `none`. -/
def all_some {α : Type} : List (Option α) → Option (List α)
  | [] => some []
  | none :: _ => none
  | some a :: rest => (all_some rest).map (fun as => a :: as)

/-- The children a field summary lists: field kind with a documentation range. -/
def documented_fields (children : NodeMap) : NodeMap :=
  children.filter (fun kv => decide (kv.2.kind = FieldDecl) && kv.2.doc_range.isSome)

/-- The bullet of a field: its bare name and the `parse_comment` text of its
documentation range, through the formatted `append`. -/
def field_bullet (lines : List String) (node : Node) : Option String :=
  (node.doc_range.bind (parse_comment lines)).map
    (fun comment => snprintf 511 ("* `" ++ c_str node.name ++ "`  " ++ c_str comment ++ "\n"))

/-- The fragments of a declaration rendered by `append_decl` and followed by its comment. -/
def decl_fragments (lines : List String) (depth : Nat) (kstr : String) (node : Node)
    (range : SourceRange) : Option (List String) :=
  (parse_comment lines range).bind (fun comment =>
    (parse_source lines node.decl_range.line_start node.decl_range.line_end 0).map
      (fun formatted =>
        [snprintf 511 ((if depth = 0 then "##" else "###") ++ " " ++ kstr ++ " `"
            ++ c_str node.qualified_name ++ "`\n\n"),
          "```cpp\n",
          snprintf 511 (c_str formatted ++ (if node.kind = EnumConstantDecl then "" else ";")
            ++ "\n"),
          "```\n",
          snprintf 511 (c_str comment ++ "\n\n")]))

/-- A child passes the privacy test of the member list. -/
def member_visible (options : Options) (node : Node) : Bool :=
  !(!options.include_private && node.access == Private)

/-- The children for which `append_child_nodes` reconstructs a line, out of the
sorted children and the start lines already taken: the visible ones whose
start line has not been taken by an earlier one. -/
def rendered_members (options : Options) : List Node → List Nat → List Node
  | [], _ => []
  | node :: rest, taken =>
    if member_visible options node = true ∧ node.decl_range.line_start ∉ taken then
      node :: rendered_members options rest (node.decl_range.line_start :: taken)
    else rendered_members options rest taken

/-- The line of a member: its reconstructed source, through the formatted `append`. -/
def member_line (lines : List String) (indent : Nat) (node : Node) : Option String :=
  (parse_source lines node.decl_range.line_start node.decl_range.line_end indent).map
    (fun formatted =>
      snprintf 511 (c_str formatted ++ (if node.kind = EnumConstantDecl then "" else ";")
        ++ (if node.kind = EnumConstantDecl then "" else "\n") ++ "\n"))

/-- The fragments of a list of members with their lines: each line, with an
access header in front where the access differs from the one before. -/
def member_fragments (parent_kind : CXCursorKind) :
    CX_CXXAccessSpecifier → List (Node × String) → List String
  | _, [] => []
  | access, (node, line) :: rest =>
    (if node.access ≠ access then access_header parent_kind node.access [] else [])
      ++ line :: member_fragments parent_kind node.access rest

/-- The fragments that one call of `Header::build()` puts at index 1: the
table of contents and its separator, or nothing when `build_toc` is off. -/
def toc_block (h : Header) : Option (List String) :=
  if h.options.build_toc = true then
    (build_toc 0 h.declarations []).map (fun toc => toc ++ ["\n---\n\n"])
  else some []

/-- The first fragment that a call of `Header::build()` appends. -/
def title_fragment (h : Header) : String :=
  snprintf 511 ("# " ++ c_str h.filename ++ "\n\n")

/-- The vector `compiled` after `toc` is inserted at `compiled.begin() + 1`. -/
def insert_at_one (toc compiled : List String) : List String :=
  compiled.take 1 ++ toc ++ compiled.drop 1

/-! ## Definitions used to state the properties of the tree -/

mutual
/-- The qualified names of all the nodes of a tree, at any depth. -/
def all_names : NodeMap → List QualifiedName
  | [] => []
  | (_, n) :: rest => node_names n ++ all_names rest
/-- The qualified name of a node and those of all the nodes below it. -/
def node_names : Node → List QualifiedName
  | .mk _ qualified_name _ _ _ _ children => qualified_name :: all_names children
end

mutual
/-- Every key of the tree, at any depth, is the qualified name of the node it maps to. -/
def keys_ok : NodeMap → Bool
  | [] => true
  | (k, n) :: rest => decide (k = n.qualified_name) && node_keys_ok n && keys_ok rest
/-- The keys below a node are the qualified names of their nodes. -/
def node_keys_ok : Node → Bool
  | .mk _ _ _ _ _ _ children => keys_ok children
end

/-- The qualified names of the nodes of one map, without the nodes below them. -/
def root_names (m : NodeMap) : List QualifiedName := m.map (fun kv => kv.2.qualified_name)

mutual
/-- The parent-child pairs of a tree, as pairs of qualified names. -/
def map_edges : NodeMap → List (QualifiedName × QualifiedName)
  | [] => []
  | (_, n) :: rest => node_edges n ++ map_edges rest
/-- The pairs of a node with each of its children, and the pairs below them. -/
def node_edges : Node → List (QualifiedName × QualifiedName)
  | .mk _ qualified_name _ _ _ _ children =>
    (root_names children).map (fun c => (qualified_name, c)) ++ map_edges children
end

/-- A declaration event as `Header::parse` hands it to `Header::insert`: the
members of the new node, and the kind and the qualified name of the semantic
parent of the cursor. -/
structure Event where
  name : String
  qualified_name : QualifiedName
  kind : CXCursorKind
  access : CX_CXXAccessSpecifier
  decl_range : SourceRange
  doc_range : Option SourceRange
  parent_kind : CXCursorKind
  parent_name : QualifiedName

/-- The node that `Header::parse` makes for an event, `std::make_unique<Node>(name_str,
qname, kind, access, decl_range, doc_range)`: it has no children. -/
def Event.node (e : Event) : Node :=
  .mk e.name e.qualified_name e.kind e.access e.decl_range e.doc_range []

/-- The call `self->insert(cursor, std::move(node))` of `Header::parse` for one event. -/
def ingest (declarations : NodeMap) (e : Event) : Option NodeMap :=
  insert declarations e.parent_kind e.parent_name e.node

/-- The calls of `Header::insert` for a sequence of events, in order. -/
def ingest_all : NodeMap → List Event → Option NodeMap
  | declarations, [] => some declarations
  | declarations, e :: rest =>
    match ingest declarations e with
    | none => none
    | some declarations => ingest_all declarations rest

/-- The invariant of the tree under ingestion: the keys are the qualified names
of their nodes, no qualified name occurs twice, and every node below another
was put there by an event that names that parent, of a container kind. -/
def tree_inv (past : List Event) (tree : NodeMap) : Prop :=
  keys_ok tree = true ∧ (all_names tree).Nodup ∧
    ∀ pq cq, (pq, cq) ∈ map_edges tree →
      ∃ e ∈ past, e.qualified_name = cq ∧ iscontainer e.parent_kind = true ∧
        e.parent_name = pq

/-- The relation between a map and the map after a node with the qualified
name `Q` and no children was put under the node `P` somewhere in or below it:
the names of the map itself are the same, the names of the tree gain `Q`, the
keys stay consistent, and the only new parent-child pair is `(P, Q)`. -/
def grown_map (P Q : QualifiedName) (m m' : NodeMap) : Prop :=
  root_names m' = root_names m ∧ (all_names m').Perm (Q :: all_names m) ∧
    (keys_ok m = true → keys_ok m' = true) ∧
    ∀ e ∈ map_edges m', e = (P, Q) ∨ e ∈ map_edges m

/-- The relation `grown_map` for a single node and the tree below it. -/
def grown_node (P Q : QualifiedName) (n n' : Node) : Prop :=
  n'.qualified_name = n.qualified_name ∧ (node_names n').Perm (Q :: node_names n) ∧
    (keys_ok n.children = true → keys_ok n'.children = true) ∧
    ∀ e ∈ node_edges n', e = (P, Q) ∨ e ∈ node_edges n

/-! ## Example inputs -/

/-- A class whose member function is declared in the class without a comment
and defined out of line under a comment. -/
def dup_lines : List String :=
  ["", "class C \x7b", "public:", "\tvoid f();", "\x7d;", "// Documented at the definition",
    "void C::f() \x7b\x7d", ""]

/-- The tree after the class `C` of `dup_lines` is ingested. -/
def dup_tree : NodeMap :=
  [("C", .mk "C" "C" ClassDecl InvalidAccessSpecifier ⟨2, 5⟩ none [])]

/-- The event of the declaration of `C::f` inside the class, on line 4. -/
def dup_decl (doc_range : Option SourceRange) : Node :=
  .mk "f" "C::f" CXXMethod Public ⟨4, 4⟩ doc_range []

/-- The event of the out-of-line definition of `C::f`, on line 7. -/
def dup_defn (doc_range : Option SourceRange) : Node :=
  .mk "f" "C::f" CXXMethod Public ⟨7, 7⟩ doc_range []

/-- The class `C` holding a documented declaration of `C::f`. -/
def dup_parent : Node :=
  .mk "C" "C" ClassDecl InvalidAccessSpecifier ⟨2, 5⟩ none
    [("C::f", dup_decl (some ⟨2, 2⟩))]

/-- A class with a private, documented member function, as in `test.h`. -/
def private_lines : List String :=
  ["", "class C \x7b", "private:", "\t// Has a comment", "\tvoid g();", "\x7d;", ""]

/-- The tree that `private_lines` parses to. -/
def private_tree : NodeMap :=
  [("C", .mk "C" "C" ClassDecl InvalidAccessSpecifier ⟨2, 6⟩ none
    [("C::g", .mk "g" "C::g" CXXMethod Private ⟨5, 5⟩ (some ⟨3, 3⟩) [])])]

/-- A class with a private, documented field. -/
def secret_lines : List String :=
  ["", "class C \x7b", "private:", "\t// The secret", "\tint secret;", "\x7d;", ""]

/-- The class node that `secret_lines` parses to. -/
def secret_class : Node :=
  .mk "C" "C" ClassDecl InvalidAccessSpecifier ⟨2, 6⟩ none
    [("C::secret", .mk "secret" "C::secret" FieldDecl Private ⟨5, 5⟩ (some ⟨3, 3⟩) [])]

/-- The struct `StructDeclB` of `test.h` with its constructor. -/
def struct_lines : List String :=
  ["", "struct StructDeclB \x7b", "\tfloat x, y, z;", "", "\t// Constructor for StructDeclB",
    "\tStructDeclB(float x, float y, float z);", "\x7d;", ""]

/-- The node that `struct_lines` parses to; the three fields start on the same line. -/
def struct_node : Node :=
  .mk "StructDeclB" "StructDeclB" StructDecl InvalidAccessSpecifier ⟨2, 7⟩ none
    [("StructDeclB::StructDeclB",
        .mk "StructDeclB" "StructDeclB::StructDeclB" Constructor Public ⟨6, 6⟩ (some ⟨4, 4⟩) []),
      ("StructDeclB::x", .mk "x" "StructDeclB::x" FieldDecl Public ⟨3, 3⟩ none []),
      ("StructDeclB::y", .mk "y" "StructDeclB::y" FieldDecl Public ⟨3, 3⟩ none []),
      ("StructDeclB::z", .mk "z" "StructDeclB::z" FieldDecl Public ⟨3, 3⟩ none [])]

/-- An enumeration written on one line, with its comment, as in `test.h`. -/
def enum_lines : List String :=
  ["", "// This enum is written in one line", "enum E \x7b A, B \x7d;", ""]

/-- The node that `enum_lines` parses to; `find_doc` gives the constants, which
start on the line of the enumeration, the same documentation range. -/
def enum_node : Node :=
  .mk "E" "E" EnumDecl InvalidAccessSpecifier ⟨3, 3⟩ (some ⟨1, 1⟩)
    [("E::A", .mk "A" "E::A" EnumConstantDecl InvalidAccessSpecifier ⟨3, 3⟩ (some ⟨1, 1⟩) []),
      ("E::B", .mk "B" "E::B" EnumConstantDecl InvalidAccessSpecifier ⟨3, 3⟩ (some ⟨1, 1⟩) [])]

/-- A header for `enum_lines` on which `build()` has not been called. -/
def enum_header : Header :=
  ⟨"e.h", [], enum_lines, [("E", enum_node)], ⟨false, true, false, "", ""⟩⟩

/-- The header `enum_header` after one call of `build()`. -/
def enum_header_built : Header :=
  ⟨"e.h",
    ["# e.h\n\n", "* [E](#Enum-E)\n", "    * [A](#Enum Constant-E::A)\n",
      "    * [B](#Enum Constant-E::B)\n", "\n---\n\n", "## Enum `E`\n\n", "```cpp\n",
      "enum E \x7b A, B \x7d;\n", "```\n", "This enum is written in one line\n\n"],
    enum_lines, [("E", enum_node)], ⟨false, true, false, "", ""⟩⟩

/-- A variable declared on the last line of a file, under its comment. -/
def last_line_lines : List String := ["", "// The answer", "int answer;"]

/-- The text that `parse_source` keeps of one line before it looks for a brace:
`ltrim(line, '\t')` and then `rtrim(line, ';')`. -/
def trim_line (l : String) : String := rtrim (ltrim l ['\t']) [';']

/-- A line with all its leading tab characters and all its trailing semicolons removed. -/
def strip_tabs_semicolons (l : String) : String :=
  ⟨(l.data.dropWhile (fun c => c == '\t')).rdropWhile (fun c => c == ';')⟩

/-- The concatenation of a list of strings. -/
def concat_strings : List String → String
  | [] => ""
  | s :: rest => s ++ concat_strings rest

/-- The strings of a list joined by single newline characters, none after the last. -/
def join_with_newline : List String → String
  | [] => ""
  | [l] => l
  | l :: rest => l ++ "\n" ++ join_with_newline rest

/-- The four-line declaration `template_func2` of `test.h`. -/
def template_lines : List String :=
  ["", "\ttemplate<typename... Args>", "\tstd::string",
    "\ttemplate_func2(const std::vector<std::shared_ptr> &long_variable_name1,",
    "\t               const std::vector<std::shared_ptr> &long_variable_name2);", ""]

/-- A function defined in the header: the opening brace ends the second line of the range. -/
def body_lines : List String :=
  ["", "static inline int", "twice(int x) \x7b", "\treturn 2 * x;", "\x7d", ""]

/-- The text that `parse_comment` keeps of one line: leading spaces and tabs,
then up to three slashes, then up to one space are removed. -/
def strip_comment_marker (line : String) : String :=
  ltrim_count (ltrim_count (ltrim line [' ', '\t']) 3 ['/']) 1 [' ']

/-- The contribution of one line to the comment text: a paragraph break for a
line that is empty after stripping, else the text, followed by a space unless
the line is the last of the range. -/
def comment_piece (line : String) (last : Bool) : String :=
  if (strip_comment_marker line).data.isEmpty then "\n\n"
  else if last then strip_comment_marker line
  else strip_comment_marker line ++ " "

/-- The comment block of `virtual_func` in `test.h`. -/
def comment_lines : List String :=
  ["", "\t// A *virtual* function in BaseClassDecl", "\t//",
    "\t//     // This is a comment in a code block", "\t//", "\t// See the example above.",
    "\tvirtual void virtual_func() const;", ""]

/-- The condition of the table of contents on a single node: it has a
documentation range or is a container kind, is not field kind, has a category
label and has a name that is not empty. -/
def linkable (n : Node) : Bool :=
  (n.doc_range.isSome || iscontainer n.kind) && decide (n.kind ≠ FieldDecl) &&
    (decl_str n.kind).isSome && decide (n.name ≠ "")

/-- The entry of a node at a depth: four spaces per level, the bare name, and
the anchor made of the category label, a dash and the qualified name. -/
def toc_entry (depth : Nat) (n : Node) : String :=
  spaces (depth * 4) ++ "* [" ++ n.name ++ "](#" ++ ((decl_str n.kind).getD "" ++ "-"
    ++ n.qualified_name) ++ ")\n"

mutual
/-- The nodes of a map, with their depth, that are linkable and lie below
linkable nodes only, in map order, the children of a node right after it. -/
def toc_nodes (depth : Nat) : NodeMap → List (Nat × Node)
  | [] => []
  | (_, n) :: rest => toc_nodes_of depth n ++ toc_nodes depth rest
/-- The node, when it is linkable, followed by the `toc_nodes` of its children. -/
def toc_nodes_of (depth : Nat) : Node → List (Nat × Node)
  | .mk name qualified_name kind access decl_range doc_range children =>
    if linkable (.mk name qualified_name kind access decl_range doc_range children) = true then
      (depth, .mk name qualified_name kind access decl_range doc_range children)
        :: toc_nodes (depth + 1) children
    else []
end

/-- An unnamed enumeration `enum { A, B }` at the root with its two constants. -/
def unnamed_enum_tree : NodeMap :=
  [("", .mk "" "" EnumDecl InvalidAccessSpecifier ⟨2, 5⟩ none
    [("A", .mk "A" "A" EnumConstantDecl InvalidAccessSpecifier ⟨3, 3⟩ none []),
      ("B", .mk "B" "B" EnumConstantDecl InvalidAccessSpecifier ⟨4, 4⟩ none [])])]

/-- A class with a documented method, as `build_toc` lists them. -/
def toc_tree : NodeMap :=
  [("C", .mk "C" "C" ClassDecl InvalidAccessSpecifier ⟨2, 6⟩ none
    [("C::g", .mk "g" "C::g" CXXMethod Public ⟨5, 5⟩ (some ⟨3, 3⟩) [])])]

/-- The tree of `namespace f \x7b int x; \x7d` on line 2: a namespace is not a
container kind, so the root binds `f::x`, to an undocumented variable. -/
def local_tree : NodeMap :=
  [("f::x", .mk "x" "f::x" VarDecl InvalidAccessSpecifier ⟨2, 2⟩ none [])]

/-- The node of a variable `x` declared on line 9 inside a function `f` of an
unnamed namespace: `get_qualified_name` gives it the name `f::x` as well. -/
def local_event : Node :=
  .mk "x" "f::x" VarDecl InvalidAccessSpecifier ⟨9, 9⟩ none []

/-- The events of `struct S;` followed by `struct S \x7b int a; \x7d;`: the
forward declaration, the definition, and the field with the struct as parent. -/
def struct_events : List Event :=
  [⟨"S", "S", StructDecl, InvalidAccessSpecifier, ⟨1, 1⟩, none, TranslationUnit, ""⟩,
    ⟨"S", "S", StructDecl, InvalidAccessSpecifier, ⟨2, 4⟩, none, TranslationUnit, ""⟩,
    ⟨"a", "S::a", FieldDecl, Public, ⟨3, 3⟩, none, StructDecl, "S"⟩]

/-- The lines kept of a header `#pragma once`, `// The answer`, `int answer;`:
the reader drops the preprocessor line, so the comment is on the first line. -/
def top_comment_lines : List String := ["// The answer", "int answer;"]

/-- The access header in front of a rendered member, in the words of the
specification: none when the access level is that of the previously rendered
member (`previous` is `none` before the first one); on a change `protected:`
and `private:` always, `public:` only when the container is a class kind. -/
def spec_access_header (parent_kind : CXCursorKind) (previous : Option CX_CXXAccessSpecifier)
    (access : CX_CXXAccessSpecifier) : Option String :=
  if previous = some access then none
  else
    match access with
    | Protected => some "protected:\n"
    | Private => some "private:\n"
    | Public => if isclass parent_kind = true then some "public:\n" else none
    | InvalidAccessSpecifier => none

/-- The fragments of the rendered members in the words of the specification:
each member line, with its access header, if any, immediately in front. -/
def spec_member_fragments (parent_kind : CXCursorKind) :
    Option CX_CXXAccessSpecifier → List (Node × String) → List String
  | _, [] => []
  | previous, (node, line) :: rest =>
    (spec_access_header parent_kind previous node.access).toList
      ++ line :: spec_member_fragments parent_kind (some node.access) rest

/-- A class with two public members, a protected and a private one. -/
def access_lines : List String :=
  ["", "class C \x7b", "public:", "\tint a;", "\tint b;", "protected:", "\tint c;",
    "private:", "\tint d;", "\x7d;", ""]

/-- The class node that `access_lines` parses to. -/
def access_class : Node :=
  .mk "C" "C" ClassDecl InvalidAccessSpecifier ⟨2, 10⟩ none
    [("C::a", .mk "a" "C::a" FieldDecl Public ⟨4, 4⟩ none []),
      ("C::b", .mk "b" "C::b" FieldDecl Public ⟨5, 5⟩ none []),
      ("C::c", .mk "c" "C::c" FieldDecl Protected ⟨7, 7⟩ none []),
      ("C::d", .mk "d" "C::d" FieldDecl Private ⟨9, 9⟩ none [])]

/-- A variable whose comment line holds 520 characters of text. -/
def long_comment_lines : List String :=
  ["", "// " ++ ⟨List.replicate 520 'x'⟩, "int x;", ""]

/-- The tree that `long_comment_lines` parses to. -/
def long_comment_tree : NodeMap :=
  [("x", .mk "x" "x" VarDecl InvalidAccessSpecifier ⟨3, 3⟩ (some ⟨1, 1⟩) [])]

/-- A documented variable that is not on the last line of the file. -/
def answer_lines : List String := ["", "// The answer", "int answer;", ""]

/-- The node that `answer_lines` parses to. -/
def answer_node : Node :=
  .mk "answer" "answer" VarDecl InvalidAccessSpecifier ⟨3, 3⟩ (some ⟨1, 1⟩) []

/-- The events of
`struct S \x7b struct Inner \x7b static int y; \x7d; \x7d;`, `struct S;`,
`int S::Inner::y = 0;`: the redeclaration of `S` replaces the undocumented
root node, and the definition of `y` names the parent `S::Inner`. -/
def lost_parent_events : List Event :=
  [⟨"S", "S", StructDecl, InvalidAccessSpecifier, ⟨1, 5⟩, none, TranslationUnit, ""⟩,
    ⟨"Inner", "S::Inner", StructDecl, Public, ⟨2, 4⟩, none, StructDecl, "S"⟩,
    ⟨"y", "S::Inner::y", VarDecl, Public, ⟨3, 3⟩, none, StructDecl, "S::Inner"⟩,
    ⟨"S", "S", StructDecl, InvalidAccessSpecifier, ⟨6, 6⟩, none, TranslationUnit, ""⟩,
    ⟨"y", "S::Inner::y", VarDecl, Public, ⟨7, 7⟩, none, StructDecl, "S::Inner"⟩]

/-- The tree after the first four events of `lost_parent_events`. -/
def lost_parent_tree : NodeMap :=
  [("S", .mk "S" "S" StructDecl InvalidAccessSpecifier ⟨6, 6⟩ none [])]

/-- The last event of `lost_parent_events`. -/
def lost_parent_event : Event :=
  ⟨"y", "S::Inner::y", VarDecl, Public, ⟨7, 7⟩, none, StructDecl, "S::Inner"⟩

/-! ## Lemmas on the map operations and on `find` -/

theorem NodeMap.replace_same (name : QualifiedName) (node : Node) :
    ∀ m : NodeMap, NodeMap.lookup name m = some node → NodeMap.replace name node m = m
  | [], h => by simp [NodeMap.lookup] at h
  | (k, n) :: rest, h => by
    unfold NodeMap.lookup at h
    unfold NodeMap.replace
    by_cases hk : k = name
    · simp only [hk, if_true] at h ⊢
      cases h
      rfl
    · simp only [hk, if_false] at h ⊢
      rw [NodeMap.replace_same name node rest h]

theorem Node.with_children_self (n : Node) : n.with_children n.children = n := by
  cases n
  rfl

mutual
theorem find_update_loop_fixed (name : QualifiedName) (f : Node → Node) :
    ∀ m : NodeMap,
      (find_loop name m = none → find_update_loop name f m = none) ∧
      (∀ p, find_loop name m = some p → f p = p → find_update_loop name f m = some m)
  | [] => by
    constructor
    · intro _
      rfl
    · intro p h
      simp [find_loop] at h
  | (k, parent) :: rest => by
    have ih1 := find_update_in_fixed name f parent
    have ih2 := find_update_loop_fixed name f rest
    constructor
    · intro h
      unfold find_loop at h
      unfold find_update_loop
      cases hp : find_in name parent with
      | some x => simp [hp] at h
      | none =>
        simp only [hp] at h
        simp [ih1.1 hp, ih2.1 h]
    · intro p h hf
      unfold find_loop at h
      unfold find_update_loop
      cases hp : find_in name parent with
      | some x =>
        simp only [hp, Option.some.injEq] at h
        subst h
        simp [ih1.2 x hp hf]
      | none =>
        simp only [hp] at h
        simp [ih1.1 hp, ih2.2 p h hf]
theorem find_update_in_fixed (name : QualifiedName) (f : Node → Node) :
    ∀ n : Node,
      (find_in name n = none → find_update_in name f n = none) ∧
      (∀ p, find_in name n = some p → f p = p → find_update_in name f n = some n)
  | .mk nm q kd a r d children => by
    have ih := find_update_loop_fixed name f children
    constructor
    · intro h
      unfold find_in at h
      unfold find_update_in
      cases hl : NodeMap.lookup name children with
      | some x => simp [hl] at h
      | none =>
        simp only [hl] at h
        simp [ih.1 h]
    · intro p h hf
      unfold find_in at h
      unfold find_update_in
      cases hl : NodeMap.lookup name children with
      | some x =>
        simp only [hl, Option.some.injEq] at h
        subst h
        simp [hf, NodeMap.replace_same name x children hl]
      | none =>
        simp only [hl] at h
        simp [ih.2 p h hf]
end

/-- A write through the pointer of `find` that stores the node it read leaves the tree as it was. -/
theorem find_update_fixed (map : NodeMap) (name : QualifiedName) (f : Node → Node) (p : Node)
    (h : find map name = some p) (hf : f p = p) : find_update map name f = some map := by
  unfold find at h
  unfold find_update
  cases hl : NodeMap.lookup name map with
  | some x =>
    simp only [hl, Option.some.injEq] at h
    subst h
    simp [hf, NodeMap.replace_same name x map hl]
  | none =>
    simp only [hl] at h
    exact (find_update_loop_fixed name f map).2 p h hf

/-- The pointer of `find` is null exactly when the write through it is undefined. -/
theorem find_update_none (map : NodeMap) (name : QualifiedName) (f : Node → Node)
    (h : find map name = none) : find_update map name f = none := by
  unfold find at h
  unfold find_update
  cases hl : NodeMap.lookup name map with
  | some x => simp [hl] at h
  | none =>
    simp only [hl] at h
    exact (find_update_loop_fixed name f map).1 h

/-! ## C1, C2: duplicate declarations -/

/-- C1. Among the children of a container the documented declaration does not
win: after the undocumented declaration of `C::f` and then its documented
definition are ingested under the class `C`, the tree holds one node `C::f`,
the undocumented one. The same two events ingested at the root leave the
documented node. -/
theorem insert_child_duplicate_keeps_first :
    find_doc dup_lines 4 = some none ∧ find_doc dup_lines 7 = some (some ⟨5, 5⟩) ∧
    ((insert dup_tree ClassDecl "C" (dup_decl none)).bind
        (fun t => insert t ClassDecl "C" (dup_defn (some ⟨5, 5⟩)))).map
      (fun t => (find t "C::f").map (fun n => (n.decl_range, n.doc_range))) =
        some (some (⟨4, 4⟩, none)) ∧
    ((insert dup_tree TranslationUnit "" (dup_decl none)).bind
        (fun t => insert t TranslationUnit "" (dup_defn (some ⟨5, 5⟩)))).map
      (fun t => (find t "C::f").map (fun n => (n.decl_range, n.doc_range))) =
        some (some (⟨7, 7⟩, some ⟨5, 5⟩)) := by
  decide

theorem dec32_pos (n : Nat) (h1 : 0 < n) (h2 : n < 2 ^ 32) : dec32 n = n - 1 := by
  unfold dec32
  omega

theorem inc32_lt (n : Nat) (h : n + 1 < 2 ^ 32) : inc32 n = n + 1 := by
  unfold inc32
  omega

/-- One iteration of the loop of `find_doc` at a comment line. -/
theorem find_doc_loop_comment (lines : List String) (fuel linenum rep end_ : Nat)
    (found : Bool) (l : String) (hr : rep < 2) (hl : lines[linenum]? = some l)
    (hc : is_comment_line l = true) :
    find_doc_loop lines (fuel + 1) linenum rep end_ found =
      find_doc_loop lines fuel (dec32 linenum) rep end_ true := by
  unfold is_comment_line at hc
  simp [find_doc_loop, hr, hl, hc]

/-- One iteration of the loop of `find_doc` at a non-comment line before any comment. -/
theorem find_doc_loop_gap (lines : List String) (fuel linenum rep end_ : Nat)
    (l : String) (hr : rep < 2) (hl : lines[linenum]? = some l)
    (hc : is_comment_line l = false) :
    find_doc_loop lines (fuel + 1) linenum rep end_ false =
      find_doc_loop lines fuel (dec32 linenum) (rep + 1) (dec32 end_) false := by
  unfold is_comment_line at hc
  simp [find_doc_loop, hr, hl, hc]

/-- The loop of `find_doc` inside a comment block: it walks up to the first
non-comment line, at index `s - 1`, and returns the range that starts at `s`. -/
theorem find_doc_loop_run (lines : List String) (s end_ rep : Nat) (hs : 1 ≤ s)
    (hr : rep < 2) (b : String) (hb : lines[s - 1]? = some b)
    (hbc : is_comment_line b = false) :
    ∀ (d fuel linenum : Nat), linenum + 1 = s + d → linenum < 2 ^ 32 - 1 → d < fuel →
      (∀ i, s ≤ i → i ≤ linenum → ∃ l, lines[i]? = some l ∧ is_comment_line l = true) →
      find_doc_loop lines fuel linenum rep end_ true = some (some ⟨s, end_⟩)
  | 0, fuel, linenum, hd, hlt, hfuel, _ => by
    obtain ⟨fuel, rfl⟩ : ∃ f, fuel = f + 1 := ⟨fuel - 1, by omega⟩
    have hl : linenum = s - 1 := by omega
    subst hl
    unfold is_comment_line at hbc
    have hi : inc32 (s - 1) = s := by
      rw [inc32_lt _ (by omega)]
      omega
    simp [find_doc_loop, hr, hb, hbc, hi]
  | d + 1, fuel, linenum, hd, hlt, hfuel, hrun => by
    obtain ⟨fuel, rfl⟩ : ∃ f, fuel = f + 1 := ⟨fuel - 1, by omega⟩
    obtain ⟨l, hl, hc⟩ := hrun linenum (by omega) (Nat.le_refl _)
    rw [find_doc_loop_comment lines fuel linenum rep end_ true l hr hl hc]
    rw [dec32_pos linenum (by omega) (by omega)]
    apply find_doc_loop_run lines s end_ rep hs hr b hb hbc d fuel (linenum - 1)
      (by omega) (by omega) (by omega)
    intro i h1 h2
    exact hrun i h1 (by omega)

/-- C10. When the declaration line `lines[L-1]` is not a comment line, the lines
at the indices `s .. L-2` are comment lines and `lines[s-1]`, with `s >= 1`, is
not, `find_doc(L)` returns the range `(s, L-2)`: it is in order and each of its
lines is a comment line. -/
theorem find_doc_comment_block (lines : List String) (L s : Nat) (decl above : String)
    (hs : 1 ≤ s) (hsL : s + 2 ≤ L) (hL : L < 2 ^ 32)
    (hdecl : lines[L - 1]? = some decl) (hdeclc : is_comment_line decl = false)
    (habove : lines[s - 1]? = some above) (habovec : is_comment_line above = false)
    (hrun : ∀ i, s ≤ i → i ≤ L - 2 → ∃ l, lines[i]? = some l ∧ is_comment_line l = true) :
    ∃ range, find_doc lines L = some (some range) ∧
      range.line_start = s ∧ range.line_end = L - 2 ∧
      range.line_start ≤ range.line_end ∧
      ∀ i, range.line_start ≤ i → i ≤ range.line_end →
        ∃ l, lines[i]? = some l ∧ is_comment_line l = true := by
  refine ⟨⟨s, L - 2⟩, ?_, rfl, rfl, by simp; omega, hrun⟩
  have hlen : L - 1 < lines.length := by
    rcases List.getElem?_eq_some_iff.mp hdecl with ⟨h, _⟩
    exact h
  obtain ⟨top, htop, htopc⟩ := hrun (L - 2) (by omega) (Nat.le_refl _)
  unfold find_doc
  simp only [dec32_pos L (by omega) hL]
  rw [if_neg (by omega)]
  rw [find_doc_loop_gap lines (lines.length + 1) (L - 1) 0 (L - 1) decl (by omega) hdecl hdeclc]
  rw [dec32_pos (L - 1) (by omega) (by omega)]
  have h2 : L - 1 - 1 = L - 2 := by omega
  rw [h2]
  rw [find_doc_loop_comment lines lines.length (L - 2) 1 (L - 2) false top (by omega) htop htopc]
  rw [dec32_pos (L - 2) (by omega) (by omega)]
  apply find_doc_loop_run lines s (L - 2) 1 hs (by omega) above habove habovec
    (L - 2 - s) lines.length (L - 2 - 1) (by omega) (by omega) (by omega)
  intro i h1 h3
  exact hrun i h1 (by omega)

theorem find_doc_comment_block_witness :
    ∃ range, find_doc ["int a;", "  // one", "\t// two", "int x;"] 4 = some (some range) ∧
      range.line_start = 1 ∧ range.line_end = 4 - 2 ∧
      range.line_start ≤ range.line_end ∧
      ∀ i, range.line_start ≤ i → i ≤ range.line_end →
        ∃ l, ["int a;", "  // one", "\t// two", "int x;"][i]? = some l ∧
          is_comment_line l = true :=
  find_doc_comment_block ["int a;", "  // one", "\t// two", "int x;"] 4 1 "int x;" "int a;"
    (by decide) (by decide) (by decide) (by decide) (by decide) (by decide) (by decide)
    (by
      intro i h1 h2
      have hi : i = 1 ∨ i = 2 := by omega
      rcases hi with rfl | rfl
      · exact ⟨"  // one", by decide, by decide⟩
      · exact ⟨"\t// two", by decide, by decide⟩)

/-- C9 as stated fails: a blank line between the comment and the declaration
makes `find_doc` return the empty optional. -/
theorem find_doc_gap_counterexample :
    is_comment_line "// doc" = true ∧ is_comment_line "" = false ∧
      is_comment_line "int x;" = false ∧
      find_doc ["int a;", "// doc", "", "int x;"] 4 = some none := by
  decide

/-- C9 amended. No gap line is tolerated: when neither the declaration line
`lines[L-1]` nor the line above it is a comment line, `find_doc(L)` returns the
empty optional, whatever the lines further up are. -/
theorem find_doc_gap_none (lines : List String) (L : Nat) (decl gap : String)
    (h2 : 2 ≤ L) (hL : L < 2 ^ 32)
    (hdecl : lines[L - 1]? = some decl) (hdeclc : is_comment_line decl = false)
    (hgap : lines[L - 2]? = some gap) (hgapc : is_comment_line gap = false) :
    find_doc lines L = some none := by
  have hlen : L - 1 < lines.length := by
    rcases List.getElem?_eq_some_iff.mp hdecl with ⟨h, _⟩
    exact h
  unfold find_doc
  simp only [dec32_pos L (by omega) hL]
  rw [if_neg (by omega)]
  rw [find_doc_loop_gap lines (lines.length + 1) (L - 1) 0 (L - 1) decl (by omega) hdecl hdeclc]
  rw [dec32_pos (L - 1) (by omega) (by omega)]
  have h3 : L - 1 - 1 = L - 2 := by omega
  rw [h3]
  rw [find_doc_loop_gap lines lines.length (L - 2) 1 (L - 2) gap (by omega) hgap hgapc]
  obtain ⟨fuel, hfuel⟩ : ∃ f, lines.length = f + 1 := ⟨lines.length - 1, by omega⟩
  rw [hfuel]
  simp [find_doc_loop]

theorem find_doc_gap_none_witness :
    find_doc ["int a;", "// doc", "", "int x;"] 4 = some none :=
  find_doc_gap_none ["int a;", "// doc", "", "int x;"] 4 "int x;" ""
    (by decide) (by decide) (by decide) (by decide) (by decide) (by decide)

/-! ## C6: the field summary -/

theorem all_some_cons_some {α : Type} (a : α) (rest : List (Option α)) :
    all_some (some a :: rest) = (all_some rest).map (fun as => a :: as) := rfl

theorem all_some_cons_none {α : Type} (rest : List (Option α)) :
    all_some ((none : Option α) :: rest) = none := rfl

theorem documented_fields_cons_pos (k : QualifiedName) (node : Node) (rest : NodeMap)
    (hk : node.kind = FieldDecl) (hd : node.doc_range.isSome = true) :
    documented_fields ((k, node) :: rest) = (k, node) :: documented_fields rest := by
  simp [documented_fields, List.filter_cons, hk, hd]

theorem documented_fields_cons_neg (k : QualifiedName) (node : Node) (rest : NodeMap)
    (h : node.kind ≠ FieldDecl ∨ node.doc_range.isNone = true) :
    documented_fields ((k, node) :: rest) = documented_fields rest := by
  rcases h with h | h
  · simp [documented_fields, List.filter_cons, h]
  · have hn : node.doc_range = none := by simpa using h
    simp [documented_fields, List.filter_cons, hn]

theorem append_fields_loop_eq (lines : List String) :
    ∀ (children : NodeMap) (compiled : List String) (has_fields : Bool),
      append_fields_loop lines children compiled has_fields =
        (all_some ((documented_fields children).map (fun kv => field_bullet lines kv.2))).map
          (fun bullets => (compiled ++ bullets, has_fields || !bullets.isEmpty))
  | [], compiled, has_fields => by
    simp [append_fields_loop, documented_fields, all_some]
  | (k, node) :: rest, compiled, has_fields => by
    unfold append_fields_loop
    by_cases hskip : (node.kind != FieldDecl || node.doc_range.isNone) = true
    · rw [if_pos hskip, append_fields_loop_eq lines rest compiled has_fields]
      rw [documented_fields_cons_neg k node rest (by simpa using hskip)]
    · rw [if_neg hskip]
      have hk : node.kind = FieldDecl := by
        by_contra hne
        exact hskip (by simp [hne])
      obtain ⟨range, hd⟩ : ∃ range, node.doc_range = some range := by
        cases hd : node.doc_range with
        | none => exact absurd (by simp [hd]) hskip
        | some range => exact ⟨range, rfl⟩
      rw [documented_fields_cons_pos k node rest hk (by simp [hd]), List.map_cons]
      simp only [hd]
      cases hc : parse_comment lines range with
      | none =>
        have hb : field_bullet lines node = none := by simp [field_bullet, hd, hc]
        simp only [hb, all_some_cons_none, Option.map_none']
      | some comment =>
        have hb : field_bullet lines node = some (snprintf 511
            ("* `" ++ c_str node.name ++ "`  " ++ c_str comment ++ "\n")) := by
          simp [field_bullet, hd, hc]
        simp only [hb, all_some_cons_some]
        rw [append_fields_loop_eq lines rest _ true]
        cases all_some ((documented_fields rest).map (fun kv => field_bullet lines kv.2)) with
        | none => rfl
        | some bs => simp [append_fmt]

theorem append_fields_eq (lines : List String) (parent : Node) (compiled : List String) :
    append_fields lines parent compiled =
      (all_some ((documented_fields parent.children).map
          (fun kv => field_bullet lines kv.2))).map
        (fun bullets =>
          if bullets = [] then compiled
          else compiled ++ "#### Member Variables\n" :: (bullets ++ ["\n"])) := by
  unfold append_fields
  rw [append_fields_loop_eq]
  cases all_some ((documented_fields parent.children).map
      (fun kv => field_bullet lines kv.2)) with
  | none => rfl
  | some bullets =>
    cases bullets with
    | nil => simp [append]
    | cons b bs => simp [append]

/-- C6. The field summary of `append_fields` has one bullet for each child that
is field kind and has a documentation range, and for no other child; the
bullets pair the bare name with `parse_comment` of the documentation range and
come in the order of the children map; when no child qualifies the output is
what it was before the call. -/
theorem append_fields_summary (lines : List String) (parent : Node) (compiled : List String) :
    append_fields lines parent compiled =
        (all_some ((documented_fields parent.children).map
            (fun kv => field_bullet lines kv.2))).map
          (fun bullets =>
            if bullets = [] then compiled
            else compiled ++ "#### Member Variables\n" :: (bullets ++ ["\n"])) ∧
      (documented_fields parent.children).Sublist parent.children ∧
      (∀ kv ∈ parent.children, kv ∈ documented_fields parent.children ↔
        (kv.2.kind = FieldDecl ∧ kv.2.doc_range.isSome = true)) := by
  refine ⟨append_fields_eq lines parent compiled, List.filter_sublist _, ?_⟩
  · intro kv hkv
    simp [documented_fields, List.mem_filter, hkv]

/-! ## C4, C5: private members -/

/-- C4. With `include_private = false` the table of contents still lists a
private member: for the class `C` with the private, documented member function
`g`, `build_toc` emits an entry for `g` and `Header::build()` returns it, while
the body leaves `g` out. -/
theorem build_toc_lists_private_member :
    find_doc private_lines 5 = some (some ⟨3, 3⟩) ∧
      build_toc 0 private_tree [] = some ["* [C](#Class-C)\n", "    * [g](#Function-C::g)\n"] ∧
      (Header.build ⟨"t.h", [], private_lines, private_tree,
          ⟨false, true, false, "", ""⟩⟩).map Header.compiled =
        some ["# t.h\n\n", "* [C](#Class-C)\n", "    * [g](#Function-C::g)\n", "\n---\n\n",
          "## Class `C`\n\n", "```cpp\n", "class C \x7b\n", "\x7d;\n", "```\n", "\n---\n\n"] := by
  decide

/-- C5. With `include_private = false` the field summary still lists a private
documented field: `append_fields` emits the bullet of `secret` and
`Header::build()` returns it, although the member list leaves the field out. -/
theorem append_fields_lists_private_field :
    find_doc secret_lines 5 = some (some ⟨3, 3⟩) ∧
    append_fields secret_lines secret_class [] =
        some ["#### Member Variables\n", "* `secret`  The secret\n", "\n"] ∧
      (Header.build ⟨"t.h", [], secret_lines, [("C", secret_class)],
          ⟨false, true, false, "", ""⟩⟩).map Header.compiled =
        some ["# t.h\n\n", "* [C](#Class-C)\n", "\n---\n\n", "## Class `C`\n\n", "```cpp\n",
          "class C \x7b\n", "\x7d;\n", "```\n", "#### Member Variables\n",
          "* `secret`  The secret\n", "\n", "\n---\n\n"] ∧
      (Header.build ⟨"t.h", [], secret_lines, [("C", secret_class)],
          ⟨true, true, false, "", ""⟩⟩).map Header.compiled =
        some ["# t.h\n\n", "* [C](#Class-C)\n", "\n---\n\n", "## Class `C`\n\n", "```cpp\n",
          "class C \x7b\n", "private:\n", "    int secret;\n", "\x7d;\n", "```\n",
          "#### Member Variables\n", "* `secret`  The secret\n", "\n", "\n---\n\n"] := by
  decide

/-! ## C8: containers declared on one line -/

theorem build_map_nil (lines : List String) (options : Options) (depth : Nat)
    (compiled : List String) : build_map lines options depth [] compiled = some compiled := by
  unfold build_map
  rfl

theorem build_map_cons (lines : List String) (options : Options) (depth : Nat)
    (k : QualifiedName) (node : Node) (rest : NodeMap) (compiled : List String) :
    build_map lines options depth ((k, node) :: rest) compiled =
      (build_node lines options depth node compiled).bind
        (build_map lines options depth rest) := by
  rw [build_map]
  cases build_node lines options depth node compiled <;> rfl

theorem build_map_append (lines : List String) (options : Options) (depth : Nat) :
    ∀ (pre post : NodeMap) (compiled : List String),
      build_map lines options depth (pre ++ post) compiled =
        (build_map lines options depth pre compiled).bind (build_map lines options depth post)
  | [], post, compiled => by simp [build_map_nil]
  | (k, node) :: pre, post, compiled => by
    rw [List.cons_append, build_map_cons, build_map_cons]
    cases build_node lines options depth node compiled with
    | none => rfl
    | some c => exact build_map_append lines options depth pre post c

/-- C8. For a container-kind node whose declaration starts and ends on the same
line, what `Header::build(map, depth)` emits does not depend on the children of
the node: the node contributes at most its own heading, code block and comment,
and only when it is printable, visible and documented. -/
theorem build_one_line_container (lines : List String) (options : Options) (depth : Nat)
    (pre post : NodeMap) (key : QualifiedName) (node : Node) (children : NodeMap)
    (compiled : List String) (hk : iscontainer node.kind = true)
    (hl : node.decl_range.line_start = node.decl_range.line_end) :
    build_map lines options depth (pre ++ (key, node) :: post) compiled =
        build_map lines options depth (pre ++ (key, node.with_children children) :: post)
          compiled ∧
      build_node lines options depth node compiled =
        match decl_str node.kind, node.doc_range with
        | none, _ => some compiled
        | some _, none => some compiled
        | some kstr, some range =>
          if (!options.include_private && node.access == Private) = true then some compiled
          else (decl_fragments lines depth kstr node range).map (fun fs => compiled ++ fs) := by
  have hnode : ∀ (c : List String) (ch : NodeMap),
      build_node lines options depth (node.with_children ch) c =
        match decl_str node.kind, node.doc_range with
        | none, _ => some c
        | some _, none => some c
        | some kstr, some range =>
          if (!options.include_private && node.access == Private) = true then some c
          else (decl_fragments lines depth kstr node range).map (fun fs => c ++ fs) := by
    intro c ch
    cases node with
    | mk name qn kind access dr doc children0 =>
      simp only [Node.kind, Node.decl_range] at hk hl
      have hfield : kind ≠ FieldDecl := by
        intro h
        rw [h] at hk
        exact absurd hk (by decide)
      simp only [Node.with_children, Node.kind, Node.doc_range, Node.access]
      unfold build_node
      cases hs : decl_str kind with
      | none => rfl
      | some kstr =>
        cases doc with
        | none =>
          by_cases hp : (!options.include_private && access == Private) = true
          · simp [hp]
          · simp [hp, hk, hl]
        | some range =>
          by_cases hp : (!options.include_private && access == Private) = true
          · simp [hp]
          · simp only [hp, hk, hl, if_false, bne_self_eq_false, Bool.and_false,
              Bool.false_eq_true, hfield, decl_fragments, Node.decl_range, Node.qualified_name,
              Node.kind, append_decl]
            cases parse_comment lines range with
            | none => rfl
            | some comment =>
              cases parse_source lines dr.line_end dr.line_end 0 with
              | none => rfl
              | some formatted => simp [append_fmt, append]
  constructor
  · rw [build_map_append, build_map_append]
    congr 1
    funext c
    rw [build_map_cons, build_map_cons]
    have h1 := hnode c node.children
    rw [Node.with_children_self] at h1
    rw [h1, hnode c children]
  · have h1 := hnode compiled node.children
    rw [Node.with_children_self] at h1
    exact h1

/-! ## C7: the member list -/

theorem access_header_append (parent_kind : CXCursorKind) (access : CX_CXXAccessSpecifier)
    (compiled : List String) :
    access_header parent_kind access compiled =
      compiled ++ access_header parent_kind access [] := by
  unfold access_header append
  split
  · simp
  · split
    · simp
    · split <;> simp

theorem child_nodes_loop_eq (lines : List String) (options : Options)
    (parent_kind : CXCursorKind) (indent : Nat) :
    ∀ (sorted : List Node) (taken : List Nat) (access : CX_CXXAccessSpecifier)
      (compiled : List String),
      child_nodes_loop lines options parent_kind indent sorted taken access compiled =
        (all_some ((rendered_members options sorted taken).map (member_line lines indent))).map
          (fun ls => compiled ++
            member_fragments parent_kind access ((rendered_members options sorted taken).zip ls))
  | [], taken, access, compiled => by
    simp [child_nodes_loop, rendered_members, all_some, member_fragments]
  | node :: rest, taken, access, compiled => by
    unfold child_nodes_loop rendered_members
    by_cases hv : (!options.include_private && node.access == Private) = true
    · have hm : member_visible options node = false := by simp [member_visible, hv]
      rw [if_pos hv, if_neg (by simp [hm])]
      exact child_nodes_loop_eq lines options parent_kind indent rest taken access compiled
    · have hm : member_visible options node = true := by
        unfold member_visible
        rw [Bool.not_eq_true']
        exact Bool.eq_false_iff.2 hv
      rw [if_neg hv]
      by_cases ht : node.decl_range.line_start ∈ taken
      · have htc : taken.contains node.decl_range.line_start = true := by simpa using ht
        rw [if_pos htc, if_neg (fun h : member_visible options node = true ∧
          node.decl_range.line_start ∉ taken => h.2 ht)]
        exact child_nodes_loop_eq lines options parent_kind indent rest taken access compiled
      · have htc : ¬ taken.contains node.decl_range.line_start = true := by simpa using ht
        rw [if_neg htc, if_pos (show member_visible options node = true ∧
          node.decl_range.line_start ∉ taken from ⟨hm, ht⟩), List.map_cons]
        cases hp : parse_source lines node.decl_range.line_start node.decl_range.line_end
            indent with
        | none =>
          have hl : member_line lines indent node = none := by simp [member_line, hp]
          simp only [hl, all_some_cons_none, Option.map_none']
        | some formatted =>
          have hl : member_line lines indent node = some (snprintf 511 (c_str formatted
              ++ (if node.kind = EnumConstantDecl then "" else ";")
              ++ (if node.kind = EnumConstantDecl then "" else "\n") ++ "\n")) := by
            simp [member_line, hp]
          simp only [hl, all_some_cons_some]
          rw [child_nodes_loop_eq lines options parent_kind indent rest _ node.access _]
          cases all_some ((rendered_members options rest
              (node.decl_range.line_start :: taken)).map (member_line lines indent)) with
          | none => rfl
          | some ls =>
            simp only [Option.map_some', List.zip_cons_cons, member_fragments, append_fmt]
            by_cases ha : node.access = access
            · simp [ha, List.zip]
            · rw [if_pos ha, if_pos ha, access_header_append]
              simp [List.zip]

/-- The start lines of the rendered members of a sorted list increase strictly,
avoid the lines already taken, and are the start lines of the visible nodes. -/
theorem rendered_members_lines (options : Options) :
    ∀ (sorted : List Node) (taken : List Nat),
      sorted.Pairwise (fun a b => a.decl_range.line_start ≤ b.decl_range.line_start) →
      ((rendered_members options sorted taken).map
          (fun n => n.decl_range.line_start)).Pairwise (fun a b => a < b) ∧
      ∀ l, l ∈ (rendered_members options sorted taken).map (fun n => n.decl_range.line_start) ↔
        (l ∉ taken ∧ ∃ n ∈ sorted, member_visible options n = true ∧
          n.decl_range.line_start = l)
  | [], taken, _ => by
    simp [rendered_members]
  | node :: rest, taken, hs => by
    rw [List.pairwise_cons] at hs
    unfold rendered_members
    by_cases hc : member_visible options node = true ∧ node.decl_range.line_start ∉ taken
    · rw [if_pos hc]
      obtain ⟨ih1, ih2⟩ := rendered_members_lines options rest
        (node.decl_range.line_start :: taken) hs.2
      constructor
      · rw [List.map_cons, List.pairwise_cons]
        refine ⟨?_, ih1⟩
        intro l hl
        obtain ⟨hnt, n, hn, _, hnl⟩ := (ih2 l).1 hl
        have hle := hs.1 n hn
        have hne : l ≠ node.decl_range.line_start := by
          intro h
          exact hnt (by simp [h])
        omega
      · intro l
        rw [List.map_cons, List.mem_cons, ih2 l]
        constructor
        · rintro (h | ⟨hnt, n, hn, hv, hnl⟩)
          · exact ⟨by rw [h]; exact hc.2, node, by simp, hc.1, h.symm⟩
          · exact ⟨fun h => hnt (by simp [h]), n, by simp [hn], hv, hnl⟩
        · rintro ⟨hnt, n, hn, hv, hnl⟩
          by_cases hl : l = node.decl_range.line_start
          · exact Or.inl hl
          · right
            refine ⟨by simp [hl, hnt], n, ?_, hv, hnl⟩
            rcases List.mem_cons.1 hn with h | h
            · exact absurd (by rw [← hnl, h]) hl
            · exact h
    · rw [if_neg hc]
      obtain ⟨ih1, ih2⟩ := rendered_members_lines options rest taken hs.2
      refine ⟨ih1, ?_⟩
      intro l
      rw [ih2 l]
      constructor
      · rintro ⟨hnt, n, hn, hv, hnl⟩
        exact ⟨hnt, n, by simp [hn], hv, hnl⟩
      · rintro ⟨hnt, n, hn, hv, hnl⟩
        rcases List.mem_cons.1 hn with h | h
        · subst h
          exact absurd ⟨hv, by rw [hnl]; exact hnt⟩ hc
        · exact ⟨hnt, n, h, hv, hnl⟩

theorem rendered_members_sublist (options : Options) :
    ∀ (sorted : List Node) (taken : List Nat),
      (rendered_members options sorted taken).Sublist sorted
  | [], _ => by simp [rendered_members]
  | node :: rest, taken => by
    unfold rendered_members
    split
    · exact (rendered_members_sublist options rest _).cons₂ node
    · exact (rendered_members_sublist options rest taken).cons node

/-- The arrangement `sort_by_line_start` is one that `std::sort` may produce. -/
theorem sort_by_line_start_sorted (nodes : List Node) :
    (sort_by_line_start nodes).Perm nodes ∧
      (sort_by_line_start nodes).Pairwise
        (fun a b => a.decl_range.line_start ≤ b.decl_range.line_start) := by
  haveI : IsTotal Node (fun a b => a.decl_range.line_start ≤ b.decl_range.line_start) :=
    ⟨fun a b => Nat.le_total _ _⟩
  haveI : IsTrans Node (fun a b => a.decl_range.line_start ≤ b.decl_range.line_start) :=
    ⟨fun a b c => Nat.le_trans⟩
  exact ⟨List.perm_insertionSort _ nodes, List.sorted_insertionSort _ nodes⟩

/-- C7. Whatever arrangement by start line `std::sort` produces of the children
of a container, the member lines that `append_child_nodes` emits are the lines
of `rendered_members`, in that order; their start lines increase strictly, so
that the lines come in source order and no start line is reconstructed twice,
and they are the start lines of the children that the privacy test lets through. -/
theorem append_child_nodes_source_order (lines : List String) (options : Options)
    (parent : Node) (indent : Nat) (compiled : List String) (sorted : List Node)
    (hperm : sorted.Perm (parent.children.map Prod.snd))
    (hsorted : sorted.Pairwise
      (fun a b => a.decl_range.line_start ≤ b.decl_range.line_start)) :
    append_child_nodes_sorted lines options parent.kind sorted indent compiled =
        (all_some ((rendered_members options sorted []).map (member_line lines indent))).map
          (fun ls => remove_extra_line_ending (compiled ++
            member_fragments parent.kind InvalidAccessSpecifier
              ((rendered_members options sorted []).zip ls))) ∧
      (rendered_members options sorted []).Sublist sorted ∧
      ((rendered_members options sorted []).map
          (fun n => n.decl_range.line_start)).Pairwise (fun a b => a < b) ∧
      ∀ l, l ∈ (rendered_members options sorted []).map (fun n => n.decl_range.line_start) ↔
        ∃ kv ∈ parent.children, member_visible options kv.2 = true ∧
          kv.2.decl_range.line_start = l := by
  obtain ⟨h1, h2⟩ := rendered_members_lines options sorted [] hsorted
  refine ⟨?_, rendered_members_sublist options sorted [], h1, ?_⟩
  · unfold append_child_nodes_sorted
    rw [child_nodes_loop_eq]
    cases all_some ((rendered_members options sorted []).map (member_line lines indent)) <;> rfl
  · intro l
    rw [h2 l]
    constructor
    · rintro ⟨_, n, hn, hv, hl⟩
      have hmem : n ∈ parent.children.map Prod.snd := hperm.mem_iff.1 hn
      obtain ⟨kv, hkv, rfl⟩ := List.mem_map.1 hmem
      exact ⟨kv, hkv, hv, hl⟩
    · rintro ⟨kv, hkv, hv, hl⟩
      exact ⟨by simp, kv.2, hperm.mem_iff.2 (List.mem_map.2 ⟨kv, hkv, rfl⟩), hv, hl⟩

theorem append_child_nodes_source_order_witness :
    append_child_nodes struct_lines ⟨false, true, false, "", ""⟩ struct_node 4 ["struct \x7b\n"] =
        some ["struct \x7b\n", "    float x, y, z;\n\n",
          "    StructDeclB(float x, float y, float z);\n"] ∧
      ((rendered_members ⟨false, true, false, "", ""⟩
          (sort_by_line_start (struct_node.children.map Prod.snd)) []).map
        (fun n => n.decl_range.line_start)).Pairwise (fun a b => a < b) :=
  ⟨by decide,
    (append_child_nodes_source_order struct_lines ⟨false, true, false, "", ""⟩ struct_node 4
      ["struct \x7b\n"] (sort_by_line_start (struct_node.children.map Prod.snd))
      (sort_by_line_start_sorted _).1 (sort_by_line_start_sorted _).2).2.2.1⟩

theorem build_one_line_container_witness :
    build_map enum_lines ⟨false, true, false, "", ""⟩ 0 ([] ++ ("E", enum_node) :: []) [] =
      build_map enum_lines ⟨false, true, false, "", ""⟩ 0
        ([] ++ ("E", enum_node.with_children []) :: []) [] :=
  (build_one_line_container enum_lines ⟨false, true, false, "", ""⟩ 0 [] [] "E" enum_node []
    [] (by decide) (by decide)).1

/-! ## C3: a second call of `Header::build()` -/

theorem remove_extra_line_ending_append (c y : List String) (hy : y ≠ []) :
    remove_extra_line_ending (c ++ y) = c ++ remove_extra_line_ending y := by
  unfold remove_extra_line_ending
  rw [List.getLast?_append_of_ne_nil c hy]
  cases h : y.getLast? with
  | none => exact absurd (List.getLast?_eq_none_iff.1 h) hy
  | some last =>
    simp only
    split
    · rw [List.dropLast_append_of_ne_nil c hy, List.append_assoc]
    · rfl

theorem append_child_nodes_frame (lines : List String) (options : Options) (parent : Node)
    (indent : Nat) (c y : List String) (hy : y ≠ []) :
    append_child_nodes lines options parent indent (c ++ y) =
      (append_child_nodes lines options parent indent y).map (fun ext => c ++ ext) := by
  unfold append_child_nodes append_child_nodes_sorted
  rw [child_nodes_loop_eq, child_nodes_loop_eq]
  cases all_some ((rendered_members options
      (sort_by_line_start (parent.children.map Prod.snd)) []).map (member_line lines indent)) with
  | none => rfl
  | some ls =>
    simp only [Option.map_some', List.append_assoc]
    rw [remove_extra_line_ending_append c _ (by simp [hy])]

theorem append_fields_frame (lines : List String) (parent : Node) (c : List String) :
    append_fields lines parent c =
      (append_fields lines parent []).map (fun ext => c ++ ext) := by
  rw [append_fields_eq lines parent c, append_fields_eq lines parent []]
  cases all_some ((documented_fields parent.children).map
      (fun kv => field_bullet lines kv.2)) with
  | none => rfl
  | some bullets =>
    cases bullets with
    | nil => simp
    | cons b bs => simp

theorem append_decl_frame (lines : List String) (pre kind : String) (node : Node)
    (c : List String) :
    append_decl lines pre kind node c =
      (append_decl lines pre kind node []).map (fun ext => c ++ ext) := by
  unfold append_decl
  cases parse_source lines node.decl_range.line_start node.decl_range.line_end 0 with
  | none => rfl
  | some formatted => simp [append_fmt, append]

theorem frame_tail (f g : List String → Option (List String))
    (hf : ∀ x, f x = (f []).map (fun e => x ++ e))
    (hg : ∀ x, g x = (g []).map (fun e => x ++ e)) (d : Nat) (s : String)
    (c x : List String) :
    (match f (c ++ x) with
      | none => none
      | some y =>
        match g y with
        | none => none
        | some z => if d = 0 then some (z ++ [s]) else some z) =
      Option.map (fun e => c ++ e)
        (match f x with
          | none => none
          | some y =>
            match g y with
            | none => none
            | some z => if d = 0 then some (z ++ [s]) else some z) := by
  rw [hf (c ++ x), hf x]
  cases f [] with
  | none => rfl
  | some e =>
    simp only [Option.map_some']
    rw [hg (c ++ x ++ e), hg (x ++ e)]
    cases g [] with
    | none => rfl
    | some e2 =>
      by_cases hd : d = 0
      · simp [hd]
      · simp [hd]

mutual
theorem build_map_frame (lines : List String) (options : Options) :
    ∀ (m : NodeMap) (depth : Nat) (c : List String),
      build_map lines options depth m c =
        (build_map lines options depth m []).map (fun ext => c ++ ext)
  | [], depth, c => by simp [build_map_nil]
  | (k, node) :: rest, depth, c => by
    rw [build_map_cons, build_map_cons, build_node_frame lines options node depth c]
    cases hn : build_node lines options depth node [] with
    | none => rfl
    | some e =>
      simp only [Option.map_some', Option.some_bind]
      rw [build_map_frame lines options rest depth (c ++ e),
        build_map_frame lines options rest depth e]
      cases build_map lines options depth rest [] with
      | none => rfl
      | some e2 => simp
theorem build_node_frame (lines : List String) (options : Options) :
    ∀ (n : Node) (depth : Nat) (c : List String),
      build_node lines options depth n c =
        (build_node lines options depth n []).map (fun ext => c ++ ext)
  | .mk name qn kind access dr doc children, depth, c => by
    have ih := build_map_frame lines options children (depth + 1)
    unfold build_node
    cases decl_str kind with
    | none => simp
    | some kstr =>
      simp only
      by_cases hp : (!options.include_private && access == Private) = true
      · simp [hp]
      · rw [if_neg hp, if_neg hp]
        by_cases hcont : (iscontainer kind && dr.line_start != dr.line_end) = true
        · rw [if_pos hcont, if_pos hcont]
          cases parse_source lines dr.line_start dr.line_end 0 with
          | none => rfl
          | some formatted =>
            simp only [append_fmt, append, List.nil_append]
            generalize snprintf 511 ((if depth = 0 then "##" else "###") ++ " " ++ kstr ++ " `"
              ++ c_str qn ++ "`\n\n") = x1
            generalize snprintf 511 (c_str formatted ++ " \x7b\n") = x3
            have hy : c ++ [x1] ++ ["```cpp\n"] ++ [x3] = c ++ [x1, "```cpp\n", x3] := by simp
            have hy0 : [x1] ++ ["```cpp\n"] ++ [x3] = [x1, "```cpp\n", x3] := by simp
            rw [hy, hy0, append_child_nodes_frame lines options _ 4 c [x1, "```cpp\n", x3]
              (by simp)]
            cases append_child_nodes lines options (Node.mk name qn kind access dr doc children)
              4 [x1, "```cpp\n", x3] with
            | none => rfl
            | some a =>
              simp only [Option.map_some']
              cases doc with
              | none =>
                simp only [List.append_assoc]
                exact frame_tail _ _ (append_fields_frame lines _) ih depth _ c _
              | some range =>
                simp only
                cases parse_comment lines range with
                | none => rfl
                | some comment =>
                  simp only [List.append_assoc]
                  exact frame_tail _ _ (append_fields_frame lines _) ih depth _ c _
        · rw [if_neg hcont, if_neg hcont]
          cases doc with
          | none => simp
          | some range =>
            by_cases hf : kind = FieldDecl
            · simp [hf]
            · simp only [hf, if_false]
              cases parse_comment lines range with
              | none => rfl
              | some comment =>
                simp only
                rw [append_decl_frame]
                cases append_decl lines (if depth = 0 then "##" else "###") kstr
                  (Node.mk name qn kind access dr (some range) children) [] with
                | none => rfl
                | some e => simp [append_fmt]
end

theorem Header.build_eq (h : Header) :
    h.build =
      (build_map h.lines h.options 0 h.declarations []).bind (fun body =>
        (toc_block h).map (fun toc =>
          { h with compiled := insert_at_one toc (h.compiled ++ title_fragment h :: body) })) := by
  unfold Header.build toc_block insert_at_one title_fragment
  simp only [append_fmt]
  rw [build_map_frame]
  cases build_map h.lines h.options 0 h.declarations [] with
  | none => rfl
  | some body =>
    simp only [Option.map_some', Option.some_bind]
    by_cases ht : h.options.build_toc = true
    · simp only [ht, if_true]
      cases build_toc 0 h.declarations [] with
      | none => rfl
      | some toc => simp
    · simp only [ht, if_false, Option.map_some', List.append_nil, List.take_append_drop,
        Bool.false_eq_true]
      simp

theorem insert_at_one_length (toc compiled : List String) :
    (insert_at_one toc compiled).length = compiled.length + toc.length := by
  unfold insert_at_one
  simp only [List.length_append, List.length_take, List.length_drop]
  omega

/-- C3 as stated fails: on the header of the one-line enumeration the second
call of `build()` returns twenty fragments, the first call ten. -/
theorem build_twice_counterexample :
    (enum_header.build).map Header.compiled =
        some ["# e.h\n\n", "* [E](#Enum-E)\n", "    * [A](#Enum Constant-E::A)\n",
          "    * [B](#Enum Constant-E::B)\n", "\n---\n\n", "## Enum `E`\n\n", "```cpp\n",
          "enum E \x7b A, B \x7d;\n", "```\n", "This enum is written in one line\n\n"] ∧
      ((enum_header.build).bind Header.build).map Header.compiled =
        some ["# e.h\n\n", "* [E](#Enum-E)\n", "    * [A](#Enum Constant-E::A)\n",
          "    * [B](#Enum Constant-E::B)\n", "\n---\n\n", "* [E](#Enum-E)\n",
          "    * [A](#Enum Constant-E::A)\n", "    * [B](#Enum Constant-E::B)\n", "\n---\n\n",
          "## Enum `E`\n\n", "```cpp\n", "enum E \x7b A, B \x7d;\n", "```\n",
          "This enum is written in one line\n\n", "# e.h\n\n", "## Enum `E`\n\n", "```cpp\n",
          "enum E \x7b A, B \x7d;\n", "```\n", "This enum is written in one line\n\n"] ∧
      ((enum_header.build).bind Header.build).map Header.compiled ≠
        (enum_header.build).map Header.compiled := by
  decide

/-- C3 amended. A call of `build()` that returns adds a title, a body and a
table-of-contents block that depend on the file name, the lines, the options
and the tree only. The buffer `compiled` is never cleared: a second call on the
same header returns as well, appends the same title and body after the
fragments of the first call and inserts the same block at index 1 again, so
its result differs from the result of the first call. -/
theorem build_second_call (h h1 : Header) (hb : h.build = some h1) :
    ∃ (body toc : List String),
      build_map h.lines h.options 0 h.declarations [] = some body ∧
      toc_block h = some toc ∧
      h1.compiled = insert_at_one toc (h.compiled ++ title_fragment h :: body) ∧
      ∃ h2, h1.build = some h2 ∧
        h2.compiled = insert_at_one toc (h1.compiled ++ title_fragment h :: body) ∧
        h2.compiled ≠ h1.compiled := by
  cases h with
  | mk filename compiled lines declarations options =>
    rw [Header.build_eq] at hb
    simp only at hb ⊢
    cases hbody : build_map lines options 0 declarations [] with
    | none => simp [hbody] at hb
    | some body =>
      cases htoc : toc_block ⟨filename, compiled, lines, declarations, options⟩ with
      | none => simp [hbody, htoc] at hb
      | some toc =>
        simp only [hbody, htoc, Option.some_bind, Option.map_some', Option.some.injEq] at hb
        subst hb
        refine ⟨body, toc, rfl, rfl, rfl, ?_⟩
        have e := Header.build_eq ⟨filename, insert_at_one toc
          (compiled ++ title_fragment ⟨filename, compiled, lines, declarations, options⟩ :: body),
          lines, declarations, options⟩
        have htoc2 : toc_block ⟨filename, insert_at_one toc (compiled ++
            title_fragment ⟨filename, compiled, lines, declarations, options⟩ :: body),
            lines, declarations, options⟩ = some toc := htoc
        simp only [hbody, htoc2, Option.some_bind, Option.map_some'] at e
        refine ⟨_, e, rfl, ?_⟩
        intro hne
        have hlen := congrArg List.length hne
        simp only [insert_at_one_length, List.length_append, List.length_cons] at hlen
        omega

theorem build_second_call_witness :
    ∃ (body toc : List String),
      build_map enum_header.lines enum_header.options 0 enum_header.declarations [] =
        some body ∧
      toc_block enum_header = some toc ∧
      enum_header_built.compiled =
        insert_at_one toc (enum_header.compiled ++ title_fragment enum_header :: body) ∧
      ∃ h2, enum_header_built.build = some h2 ∧
        h2.compiled =
          insert_at_one toc (enum_header_built.compiled ++ title_fragment enum_header :: body) ∧
        h2.compiled ≠ enum_header_built.compiled :=
  build_second_call enum_header enum_header_built rfl

/-! ## C11: a declaration on the first line -/

/-- C11. For a declaration that starts on the first line of a non-empty line
store, `find_doc(1)` does not return the empty optional: after the first line
the index wraps to `2 ^ 32 - 1` and the loop reads `lines[2 ^ 32 - 1]`, outside
the store. -/
theorem find_doc_first_line_out_of_range (lines : List String) (h0 : lines ≠ [])
    (hlen : lines.length < 2 ^ 32) : find_doc lines 1 = none := by
  have hpos : 0 < lines.length := List.length_pos.2 h0
  obtain ⟨l, hl⟩ : ∃ l, lines[0]? = some l := by
    cases lines with
    | nil => exact absurd rfl h0
    | cons a t => exact ⟨a, by simp⟩
  have hd1 : dec32 1 = 0 := by decide
  have hd0 : dec32 0 = 4294967295 := by decide
  have hout : lines[4294967295]? = none := List.getElem?_eq_none (by omega)
  unfold find_doc
  simp only [hd1]
  rw [if_neg (by omega)]
  cases hc : is_comment_line l with
  | true =>
    rw [find_doc_loop_comment lines (lines.length + 1) 0 0 0 false l (by omega) hl hc, hd0]
    simp [find_doc_loop, hout]
  | false =>
    rw [find_doc_loop_gap lines (lines.length + 1) 0 0 0 l (by omega) hl hc, hd0]
    simp [find_doc_loop, hout]

theorem find_doc_first_line_out_of_range_witness : find_doc ["int x;", ""] 1 = none :=
  find_doc_first_line_out_of_range ["int x;", ""] (by decide) (by decide)

/-! ## C14: a range that ends on the last line -/

/-- C14. A range whose 1-based end line is the last line of the line store
fails the `assert` of `parse_source`, whatever its start line and indent. -/
theorem parse_source_last_line_fails (lines : List String) (start indent : Nat) :
    parse_source lines start lines.length indent = none ∧
      parse_source last_line_lines 3 3 0 = none ∧
      build_map last_line_lines ⟨false, true, false, "", ""⟩ 0
        [("answer", .mk "answer" "answer" VarDecl InvalidAccessSpecifier ⟨3, 3⟩
          (some ⟨1, 1⟩) [])] [] = none := by
  refine ⟨?_, by decide, by decide⟩
  unfold parse_source
  rw [if_neg (by omega)]

/-! ## C12, C13: the signature reconstructor -/

/-- With a count above the length of the text the count never goes below zero:
the search of `ltrim` and `rtrim` drops every leading matching character. -/
theorem trim_find_if_eq_dropWhile (ch : List Char) :
    ∀ (s : List Char) (count : Int), (s.length : Int) < count →
      trim_find_if ch count s = s.dropWhile (fun c => ch.contains c)
  | [], _, _ => rfl
  | c :: cs, count, h => by
    unfold trim_find_if
    simp only [List.length_cons, Nat.cast_add, Nat.cast_one] at h
    rw [List.dropWhile_cons]
    cases hm : ch.contains c with
    | false => simp
    | true =>
      have hc : ¬ (count - 1 < 0) := by omega
      simp only [if_true, Bool.not_true, Bool.false_or, decide_eq_true_eq, hc, if_false]
      exact trim_find_if_eq_dropWhile ch cs (count - 1) (by omega)

theorem ltrim_data (str : String) (ch : List Char) :
    (ltrim str ch).data = str.data.dropWhile (fun c => ch.contains c) := by
  unfold ltrim ltrim_count
  simp only [if_true]
  exact trim_find_if_eq_dropWhile ch str.data _ (by omega)

theorem rtrim_data (str : String) (ch : List Char) :
    (rtrim str ch).data = str.data.rdropWhile (fun c => ch.contains c) := by
  unfold rtrim rtrim_count
  simp only [if_true, List.rdropWhile]
  rw [trim_find_if_eq_dropWhile ch str.data.reverse _ (by simp)]

theorem trim_line_eq (l : String) : trim_line l = strip_tabs_semicolons l := by
  apply String.ext
  unfold trim_line strip_tabs_semicolons
  rw [rtrim_data, ltrim_data]
  have h1 : (fun c : Char => ['\t'].contains c) = (fun c => c == '\t') := by
    funext c
    by_cases h : c = '\t' <;> simp [h]
  have h2 : (fun c : Char => [';'].contains c) = (fun c => c == ';') := by
    funext c
    by_cases h : c = ';' <;> simp [h]
  rw [h1, h2]

theorem parse_source_loop_brace (ind : String) (end_ : Nat) (b : String) (rest : List String)
    (hb : (trim_line b).data.contains '\x7b' = true) :
    ∀ (pre : List String) (i : Nat) (result : String), i + pre.length < end_ →
      (∀ l ∈ pre, (trim_line l).data.contains '\x7b' = false) →
      parse_source_loop ind end_ i (pre ++ b :: rest) result =
        result ++ (concat_strings (pre.map (fun l => ind ++ trim_line l ++ "\n"))
          ++ (ind ++ rtrim (trim_line b) ['\x7b', ' ']))
  | [], i, result, hi, _ => by
    simp only [List.nil_append, List.length_nil, Nat.add_zero] at hi ⊢
    rw [parse_source_loop, if_pos hi]
    unfold trim_line at hb
    simp only [hb, if_true, List.map_nil, concat_strings]
    unfold trim_line
    simp
  | l :: pre, i, result, hi, hpre => by
    simp only [List.length_cons] at hi
    have hl : (trim_line l).data.contains '\x7b' = false := hpre l (by simp)
    have ih := parse_source_loop_brace ind end_ b rest hb pre (i + 1)
      ((result ++ (ind ++ trim_line l)).push '\n') (by omega)
      (fun x hx => hpre x (by simp [hx]))
    rw [List.cons_append, parse_source_loop, if_pos (by omega)]
    unfold trim_line at hl
    simp only [hl, Bool.false_eq_true, if_false]
    rw [if_pos (by omega)]
    unfold trim_line at ih
    rw [ih]
    simp only [List.map_cons, concat_strings]
    apply String.ext
    simp [String.data_append, trim_line]

theorem parse_source_loop_plain (ind : String) (end_ : Nat) (tail : List String) :
    ∀ (ls : List String) (l : String) (i : Nat) (result : String), i + 1 + ls.length = end_ →
      (∀ x ∈ l :: ls, (trim_line x).data.contains '\x7b' = false) →
      parse_source_loop ind end_ i (l :: ls ++ tail) result =
        result ++ join_with_newline ((l :: ls).map (fun x => ind ++ trim_line x))
  | [], l, i, result, hi, hno => by
    simp only [List.length_nil, Nat.add_zero] at hi
    have hl : (trim_line l).data.contains '\x7b' = false := hno l (by simp)
    rw [List.cons_append, parse_source_loop, if_pos (by omega)]
    unfold trim_line at hl
    simp only [hl, Bool.false_eq_true, if_false]
    rw [if_neg (by omega)]
    have hstop : parse_source_loop ind end_ (i + 1) ([] ++ tail)
        (result ++ (ind ++ rtrim (ltrim l ['\t']) [';'])) =
        result ++ (ind ++ rtrim (ltrim l ['\t']) [';']) := by
      cases tail with
      | nil => rfl
      | cons t ts =>
        rw [List.nil_append, parse_source_loop, if_neg (by omega)]
    rw [hstop]
    simp [join_with_newline, trim_line]
  | l2 :: ls, l, i, result, hi, hno => by
    simp only [List.length_cons] at hi
    have hl : (trim_line l).data.contains '\x7b' = false := hno l (by simp)
    have ih := parse_source_loop_plain ind end_ tail ls l2 (i + 1)
      ((result ++ (ind ++ trim_line l)).push '\n') (by omega)
      (fun x hx => hno x (List.mem_cons_of_mem _ hx))
    rw [List.cons_append, parse_source_loop, if_pos (by omega)]
    unfold trim_line at hl
    simp only [hl, Bool.false_eq_true, if_false]
    rw [if_pos (by omega)]
    unfold trim_line at ih
    rw [ih]
    simp only [List.map_cons, join_with_newline]
    apply String.ext
    simp [String.data_append, trim_line]

theorem trim_line_subset (l : String) (c : Char) (h : c ∈ (trim_line l).data) : c ∈ l.data := by
  rw [trim_line_eq] at h
  unfold strip_tabs_semicolons at h
  exact (List.dropWhile_sublist _).subset ((List.rdropWhile_prefix _ _).subset h)

theorem trim_line_no_brace (l : String) (h : '\x7b' ∉ l.data) :
    (trim_line l).data.contains '\x7b' = false := by
  cases hc : (trim_line l).data.contains '\x7b' with
  | false => rfl
  | true => exact absurd (trim_line_subset l _ (by simpa using hc)) h

/-- The lines of a 1-based range inside the store are the head of the store from `start - 1` on. -/
theorem range_split (lines : List String) (start end_ : Nat) (h1 : 1 ≤ start)
    (h2 : start ≤ end_) (h3 : end_ < lines.length) :
    ((lines.drop (start - 1)).take (end_ + 1 - start)).length = end_ + 1 - start ∧
      lines.drop (start - 1) =
        (lines.drop (start - 1)).take (end_ + 1 - start) ++
          (lines.drop (start - 1)).drop (end_ + 1 - start) := by
  refine ⟨?_, (List.take_append_drop _ _).symm⟩
  rw [List.length_take, List.length_drop]
  omega

/-- C13. For a range `1 <= start <= end < lines.size()` none of whose lines
contains an opening brace, `parse_source` returns the lines of the range, each
without its leading tabs and trailing semicolons and behind `indent` spaces,
joined by single newlines. -/
theorem parse_source_joins_lines (lines : List String) (start end_ indent : Nat)
    (h1 : 1 ≤ start) (h2 : start ≤ end_) (h3 : end_ < lines.length) (hu : start < 2 ^ 32)
    (hno : ∀ l ∈ (lines.drop (start - 1)).take (end_ + 1 - start), '\x7b' ∉ l.data) :
    parse_source lines start end_ indent =
      some (join_with_newline (((lines.drop (start - 1)).take (end_ + 1 - start)).map
        (fun l => spaces indent ++ strip_tabs_semicolons l))) := by
  obtain ⟨hlen, hsplit⟩ := range_split lines start end_ h1 h2 h3
  unfold parse_source
  rw [if_pos ⟨by omega, h3⟩, dec32_pos start (by omega) hu]
  generalize (lines.drop (start - 1)).drop (end_ + 1 - start) = tail at hsplit
  generalize (lines.drop (start - 1)).take (end_ + 1 - start) = range at hlen hno hsplit ⊢
  rw [hsplit]
  cases range with
  | nil =>
    simp only [List.length_nil] at hlen
    omega
  | cons l ls =>
    simp only [List.length_cons] at hlen
    rw [parse_source_loop_plain (spaces indent) end_ tail ls l (start - 1) "" (by omega)
      (fun x hx => trim_line_no_brace x (hno x hx))]
    simp [trim_line_eq]

theorem parse_source_joins_lines_witness :
    parse_source template_lines 2 5 4 =
      some (join_with_newline (((template_lines.drop (2 - 1)).take (5 + 1 - 2)).map
        (fun l => spaces 4 ++ strip_tabs_semicolons l))) :=
  parse_source_joins_lines template_lines 2 5 4 (by decide) (by decide) (by decide)
    (by decide) (by decide)

/-- C12 as stated fails: the signature of the one-line enumeration keeps its
braces and the constants between them. -/
theorem parse_source_brace_counterexample :
    parse_source enum_lines 3 3 0 = some "enum E \x7b A, B \x7d" ∧
      '\x7b' ∈ "enum E \x7b A, B \x7d".data := by
  decide

/-- C12 amended. `parse_source` stops at the first line of the range that
contains an opening brace: the result is the lines before it, each followed by
a newline, and that line without its trailing braces and spaces; no line after
it contributes, and the last piece does not end in an opening brace or a space. -/
theorem parse_source_stops_at_brace (lines : List String) (start end_ indent : Nat)
    (pre post : List String) (b : String)
    (h1 : 1 ≤ start) (h3 : end_ < lines.length) (hu : start < 2 ^ 32)
    (hrange : (lines.drop (start - 1)).take (end_ + 1 - start) = pre ++ b :: post)
    (hpre : ∀ l ∈ pre, '\x7b' ∉ (trim_line l).data)
    (hb : '\x7b' ∈ (trim_line b).data) :
    parse_source lines start end_ indent =
        some (concat_strings (pre.map (fun l => spaces indent ++ trim_line l ++ "\n"))
          ++ (spaces indent ++ rtrim (trim_line b) ['\x7b', ' '])) ∧
      ∀ c, (rtrim (trim_line b) ['\x7b', ' ']).data.getLast? = some c →
        c ≠ '\x7b' ∧ c ≠ ' ' := by
  constructor
  · have hlen := congrArg List.length hrange
    rw [List.length_take, List.length_drop] at hlen
    simp only [List.length_append, List.length_cons] at hlen
    have h2 : start ≤ end_ := by omega
    have hsplit := (List.take_append_drop (end_ + 1 - start) (lines.drop (start - 1))).symm
    rw [hrange] at hsplit
    unfold parse_source
    rw [if_pos ⟨by omega, h3⟩, dec32_pos start (by omega) hu, hsplit, List.append_assoc,
      List.cons_append]
    rw [parse_source_loop_brace (spaces indent) end_ b _ (by simpa using hb) pre (start - 1) ""
      (by omega) (fun l hl => by simpa using hpre l hl)]
    simp
  · intro c hc
    rw [rtrim_data] at hc
    have hne : List.rdropWhile (fun c => ['\x7b', ' '].contains c) (trim_line b).data ≠ [] := by
      intro h
      rw [h] at hc
      simp at hc
    have hlast := List.rdropWhile_last_not (fun c => ['\x7b', ' '].contains c)
      (trim_line b).data hne
    rw [List.getLast?_eq_getLast _ hne] at hc
    simp only [Option.some.injEq] at hc
    rw [hc] at hlast
    simpa using hlast

theorem parse_source_stops_at_brace_witness :
    parse_source body_lines 2 4 0 =
        some (concat_strings (["static inline int"].map
            (fun l => spaces 0 ++ trim_line l ++ "\n"))
          ++ (spaces 0 ++ rtrim (trim_line "twice(int x) \x7b") ['\x7b', ' '])) ∧
      ∀ c, (rtrim (trim_line "twice(int x) \x7b") ['\x7b', ' ']).data.getLast? = some c →
        c ≠ '\x7b' ∧ c ≠ ' ' :=
  parse_source_stops_at_brace body_lines 2 4 0 ["static inline int"] ["\treturn 2 * x;"]
    "twice(int x) \x7b" (by decide) (by decide) (by decide) (by decide) (by decide) (by decide)

/-! ## C15: the comment text -/

theorem parse_comment_loop_eq (lines : List String) (line_end : Nat)
    (hb : line_end < lines.length) (hlen : lines.length < 2 ^ 32) :
    ∀ (n ln : Nat) (comment : String), ln + n = line_end + 1 →
      parse_comment_loop line_end ln (lines.drop ln) comment =
        some (comment ++ concat_strings ((List.range' ln n).map
          (fun i => comment_piece (lines.getD i "") (decide (i = line_end)))))
  | 0, ln, comment, h => by
    have hgt : ¬ ln ≤ line_end := by omega
    cases hd : lines.drop ln with
    | nil => simp [parse_comment_loop, hgt, concat_strings]
    | cons a t => simp [parse_comment_loop, hgt, concat_strings]
  | n + 1, ln, comment, h => by
    have hle : ln ≤ line_end := by omega
    have hlt : ln < lines.length := by omega
    have hwrap : ln + 1 < 2 ^ 32 := by omega
    have hget : lines.getD ln "" = lines[ln] := by
      simp [List.getD, List.getElem?_eq_getElem hlt]
    rw [List.drop_eq_getElem_cons hlt, parse_comment_loop, if_pos hle, List.range'_succ,
      List.map_cons, concat_strings, hget]
    have hstrip : ltrim_count (ltrim_count (ltrim lines[ln] [' ', '\t']) 3 ['/']) 1 [' '] =
        strip_comment_marker lines[ln] := rfl
    simp only [hstrip, if_pos hwrap]
    by_cases he : (strip_comment_marker lines[ln]).data.isEmpty = true
    · rw [if_pos he, parse_comment_loop_eq lines line_end hb hlen n (ln + 1) _ (by omega)]
      simp only [comment_piece, he, if_true]
      congr 1
      apply String.ext
      simp [String.data_append]
    · rw [if_neg he, parse_comment_loop_eq lines line_end hb hlen n (ln + 1) _ (by omega)]
      simp only [comment_piece, he, if_false]
      by_cases hl : ln < line_end
      · have hne : ¬ ln = line_end := by omega
        simp only [hl, hne, if_true, if_false, decide_False, Bool.false_eq_true]
        congr 1
        apply String.ext
        simp [String.data_append]
      · have heq : ln = line_end := by omega
        simp only [hl, heq, if_false, decide_True, if_true]
        congr 1
        apply String.ext
        simp [String.data_append]

theorem dropWhile_append_all (p : Char → Bool) (rest : List Char) :
    ∀ ws : List Char, (∀ c ∈ ws, p c = true) → (ws ++ rest).dropWhile p = rest.dropWhile p
  | [], _ => rfl
  | w :: ws, h => by
    rw [List.cons_append, List.dropWhile_cons, if_pos (h w (by simp))]
    exact dropWhile_append_all p rest ws (fun c hc => h c (by simp [hc]))

/-- A line made of spaces and tabs, the marker `//`, one space and a text that
is not empty keeps exactly the text. -/
theorem strip_comment_marker_text (ws text : List Char)
    (hws : ∀ c ∈ ws, c = ' ' ∨ c = '\t') (htext : text ≠ []) :
    strip_comment_marker ⟨ws ++ '/' :: '/' :: ' ' :: text⟩ = ⟨text⟩ := by
  have h1 : ltrim ⟨ws ++ '/' :: '/' :: ' ' :: text⟩ [' ', '\t'] =
      ⟨'/' :: '/' :: ' ' :: text⟩ := by
    apply String.ext
    rw [ltrim_data]
    simp only
    rw [dropWhile_append_all _ _ ws (fun c hc => by
      rcases hws c hc with h | h <;> simp [h])]
    simp [List.dropWhile_cons]
  unfold strip_comment_marker
  rw [h1]
  cases text with
  | nil => exact absurd rfl htext
  | cons t ts =>
    by_cases ht : t = ' '
    · subst ht
      simp [ltrim_count, trim_find_if]
    · simp [ltrim_count, trim_find_if, ht]

/-- C15. For a range inside the line store `parse_comment` returns the
concatenation of the pieces of its lines: two newlines for a line that is empty
after stripping, else the stripped text, followed by one space unless the line
is the last of the range; and a line `(spaces/tabs) // text` with a text that
is not empty is stripped to exactly `text`. -/
theorem parse_comment_pieces (lines : List String) (range : SourceRange)
    (hlen : lines.length < 2 ^ 32) (hs : range.line_start ≤ range.line_end)
    (hb : range.line_end < lines.length) :
    parse_comment lines range =
        some (concat_strings
          ((List.range' range.line_start (range.line_end + 1 - range.line_start)).map
            (fun i => comment_piece (lines.getD i "") (decide (i = range.line_end))))) ∧
      (∀ (ws text : List Char), (∀ c ∈ ws, c = ' ' ∨ c = '\t') → text ≠ [] →
        strip_comment_marker ⟨ws ++ '/' :: '/' :: ' ' :: text⟩ = ⟨text⟩) ∧
      (∀ (ws text : List Char), (∀ c ∈ ws, c = ' ' ∨ c = '\t') → text ≠ [] →
        comment_piece ⟨ws ++ '/' :: '/' :: ' ' :: text⟩ false = ⟨text ++ [' ']⟩ ∧
        comment_piece ⟨ws ++ '/' :: '/' :: ' ' :: text⟩ true = ⟨text⟩) ∧
      (∀ line, (strip_comment_marker line).data = [] →
        ∀ last, comment_piece line last = "\n\n") := by
  refine ⟨?_, strip_comment_marker_text, ?_, ?_⟩
  · unfold parse_comment
    rw [parse_comment_loop_eq lines range.line_end hb hlen
      (range.line_end + 1 - range.line_start) range.line_start "" (by omega)]
    simp
  · intro ws text hws htext
    have hne : ¬ ((⟨text⟩ : String).data.isEmpty = true) := by
      cases text with
      | nil => exact absurd rfl htext
      | cons t ts => simp
    unfold comment_piece
    rw [strip_comment_marker_text ws text hws htext]
    simp only [hne, if_false, Bool.false_eq_true, if_true]
    constructor
    · apply String.ext
      simp [String.data_append]
    · trivial
  · intro line h last
    unfold comment_piece
    simp [h]

theorem parse_comment_pieces_witness :
    parse_comment comment_lines ⟨1, 5⟩ =
        some ("A *virtual* function in BaseClassDecl \n\n"
          ++ "    // This is a comment in a code block \n\nSee the example above.") ∧
      parse_comment comment_lines ⟨1, 5⟩ =
        some (concat_strings ((List.range' 1 (5 + 1 - 1)).map
          (fun i => comment_piece (comment_lines.getD i "") (decide (i = 5))))) :=
  ⟨by decide,
    (parse_comment_pieces comment_lines ⟨1, 5⟩ (by decide) (by decide) (by decide)).1⟩

/-! ## C16: the table of contents -/

theorem c_str_no_nul (s : String) (h : '\x00' ∉ s.data) : c_str s = s := by
  apply String.ext
  unfold c_str
  simp only
  rw [List.takeWhile_eq_self_iff]
  intro c hc
  have : c ≠ '\x00' := fun he => h (he ▸ hc)
  simpa using this

theorem c_str_spaces (n : Nat) : c_str (spaces n) = spaces n := by
  apply c_str_no_nul
  unfold spaces
  simp only
  intro h
  have := List.eq_of_mem_replicate h
  exact absurd this (by decide)

theorem decl_str_no_nul (kind : CXCursorKind) (kstr : String) (h : decl_str kind = some kstr) :
    '\x00' ∉ kstr.data := by
  cases kind <;> simp only [decl_str, Option.some.injEq] at h <;>
    first
    | (subst h; decide)
    | exact absurd h (by simp)

mutual
theorem build_toc_eq :
    ∀ (m : NodeMap) (depth : Nat) (toc : List String),
      (∀ dn ∈ toc_nodes depth m, (toc_entry dn.1 dn.2).data.length < 512 ∧
        '\x00' ∉ dn.2.name.data ∧ '\x00' ∉ dn.2.qualified_name.data) →
      build_toc depth m toc = some (toc ++ (toc_nodes depth m).map (fun dn => toc_entry dn.1 dn.2))
  | [], depth, toc, _ => by
    simp [build_toc, toc_nodes]
  | (k, n) :: rest, depth, toc, h => by
    have h1 := build_toc_node_eq n depth toc (fun dn hdn => h dn (by
      rw [toc_nodes]
      exact List.mem_append_left _ hdn))
    have h2 := build_toc_eq rest depth (toc ++ (toc_nodes_of depth n).map
      (fun dn => toc_entry dn.1 dn.2)) (fun dn hdn => h dn (by
      rw [toc_nodes]
      exact List.mem_append_right _ hdn))
    rw [build_toc, h1]
    simp only
    rw [h2, toc_nodes]
    simp
theorem build_toc_node_eq :
    ∀ (n : Node) (depth : Nat) (toc : List String),
      (∀ dn ∈ toc_nodes_of depth n, (toc_entry dn.1 dn.2).data.length < 512 ∧
        '\x00' ∉ dn.2.name.data ∧ '\x00' ∉ dn.2.qualified_name.data) →
      build_toc_node depth n toc =
        some (toc ++ (toc_nodes_of depth n).map (fun dn => toc_entry dn.1 dn.2))
  | .mk name qn kind access dr doc children, depth, toc, h => by
    rw [toc_nodes_of] at h ⊢
    rw [build_toc_node]
    by_cases h1 : (doc.isNone && !iscontainer kind) = true
    · have hl : linkable (.mk name qn kind access dr doc children) = false := by
        simp only [Bool.and_eq_true, Option.isNone_iff_eq_none, Bool.not_eq_true'] at h1
        simp [linkable, Node.doc_range, Node.kind, h1.1, h1.2]
      simp [h1, hl]
    · rw [if_neg h1]
      by_cases h2 : kind = FieldDecl
      · have hl : linkable (.mk name qn kind access dr doc children) = false := by
          simp [linkable, Node.kind, h2]
        rw [if_pos h2, if_neg (by simp [hl])]
        simp
      · rw [if_neg h2]
        cases h3 : decl_str kind with
        | none =>
          have hl : linkable (.mk name qn kind access dr doc children) = false := by
            simp [linkable, Node.kind, h3]
          simp [hl]
        | some kstr =>
          simp only
          by_cases h4 : name = ""
          · have hl : linkable (.mk name qn kind access dr doc children) = false := by
              simp [linkable, Node.name, h4]
            rw [if_pos h4, if_neg (by simp [hl])]
            simp
          · have hl : linkable (.mk name qn kind access dr doc children) = true := by
              have hd : (doc.isSome || iscontainer kind) = true := by
                cases doc <;> cases hc : iscontainer kind <;> simp_all
              simp [linkable, Node.doc_range, Node.kind, Node.name, hd, h2, h3, h4]
            rw [if_neg h4]
            rw [if_pos hl] at h ⊢
            obtain ⟨hfit, hn1, hn2⟩ := h (depth, .mk name qn kind access dr doc children)
              (by simp)
            simp only [Node.name, Node.qualified_name] at hn1 hn2
            have hentry : c_str (spaces (depth * 4)) ++ "* [" ++ c_str name ++ "](#"
                ++ c_str (kstr ++ "-" ++ qn) ++ ")\n" =
                toc_entry depth (.mk name qn kind access dr doc children) := by
              rw [c_str_spaces, c_str_no_nul name hn1, c_str_no_nul (kstr ++ "-" ++ qn) (by
                have := decl_str_no_nul kind kstr h3
                simp only [String.data_append, List.mem_append, not_or]
                exact ⟨⟨this, by decide⟩, hn2⟩)]
              simp [toc_entry, Node.name, Node.kind, Node.qualified_name, h3]
            rw [hentry]
            simp only [sprintf512, hfit, if_true]
            cases children with
            | nil => simp [toc_nodes]
            | cons c cs =>
              have ih := build_toc_eq (c :: cs) (depth + 1)
                (toc ++ [toc_entry depth (.mk name qn kind access dr doc (c :: cs))])
                (fun dn hdn => h dn (by simp [hdn]))
              simp only [List.length_cons, gt_iff_lt, Nat.zero_lt_succ, if_true]
              rw [ih]
              simp
end

theorem toc_nodes_of_linkable (depth : Nat) (n : Node) (hl : linkable n = true) :
    toc_nodes_of depth n = (depth, n) :: toc_nodes (depth + 1) n.children := by
  cases n with
  | mk name qn kind access dr doc children =>
    rw [toc_nodes_of, if_pos hl]
    rfl

theorem toc_nodes_root :
    ∀ (m : NodeMap) (depth : Nat) (kv : QualifiedName × Node), kv ∈ m →
      linkable kv.2 = true → (depth, kv.2) ∈ toc_nodes depth m
  | [], _, _, h, _ => by simp at h
  | (k, n) :: rest, depth, kv, h, hl => by
    rw [toc_nodes]
    rcases List.mem_cons.1 h with h | h
    · subst h
      apply List.mem_append_left
      rw [toc_nodes_of_linkable depth _ hl]
      simp
    · exact List.mem_append_right _ (toc_nodes_root rest depth kv h hl)

mutual
theorem toc_nodes_spec :
    ∀ (m : NodeMap) (depth : Nat) (dn : Nat × Node), dn ∈ toc_nodes depth m →
      linkable dn.2 = true ∧
        ∀ kv ∈ dn.2.children, linkable kv.2 = true → (dn.1 + 1, kv.2) ∈ toc_nodes depth m
  | [], _, _, h => by simp [toc_nodes] at h
  | (k, n) :: rest, depth, dn, h => by
    rw [toc_nodes] at h ⊢
    rcases List.mem_append.1 h with h | h
    · obtain ⟨h1, h2⟩ := toc_nodes_of_spec n depth dn h
      exact ⟨h1, fun kv hkv hl => List.mem_append_left _ (h2 kv hkv hl)⟩
    · obtain ⟨h1, h2⟩ := toc_nodes_spec rest depth dn h
      exact ⟨h1, fun kv hkv hl => List.mem_append_right _ (h2 kv hkv hl)⟩
theorem toc_nodes_of_spec :
    ∀ (n : Node) (depth : Nat) (dn : Nat × Node), dn ∈ toc_nodes_of depth n →
      linkable dn.2 = true ∧
        ∀ kv ∈ dn.2.children, linkable kv.2 = true → (dn.1 + 1, kv.2) ∈ toc_nodes_of depth n
  | .mk name qn kind access dr doc children, depth, dn, h => by
    rw [toc_nodes_of] at h ⊢
    by_cases hl : linkable (.mk name qn kind access dr doc children) = true
    · rw [if_pos hl] at h ⊢
      rcases List.mem_cons.1 h with h | h
      · subst h
        refine ⟨hl, fun kv hkv hlk => ?_⟩
        exact List.mem_cons_of_mem _ (toc_nodes_root children (depth + 1) kv hkv hlk)
      · obtain ⟨h1, h2⟩ := toc_nodes_spec children (depth + 1) dn h
        exact ⟨h1, fun kv hkv hlk => List.mem_cons_of_mem _ (h2 kv hkv hlk)⟩
    · rw [if_neg hl] at h
      simp at h
end

/-- C16 as stated fails: the constants of an unnamed enumeration satisfy the
condition on a node, and `build_toc` emits no entry for them, because it does
not visit the children of a node that gets no entry. -/
theorem build_toc_unnamed_parent_counterexample :
    build_toc 0 unnamed_enum_tree [] = some [] ∧
      (find unnamed_enum_tree "A").map linkable = some true ∧
      (find unnamed_enum_tree "B").map linkable = some true := by
  decide

/-- C16 amended. When no entry overflows the buffer of 512 characters and no
name holds a NUL, `build_toc` emits the entries of `toc_nodes` and nothing
else: one entry for each node that satisfies the condition and lies below
nodes that satisfy it too (every such node of the map itself, and every such
child of a node with an entry), in map order with the entries of the children
right after the entry of their parent; each entry is indented by four spaces
per depth and links to `<category label>-<qualified name>`. -/
theorem build_toc_entries (m : NodeMap) (depth : Nat) (toc : List String)
    (h : ∀ dn ∈ toc_nodes depth m, (toc_entry dn.1 dn.2).data.length < 512 ∧
      '\x00' ∉ dn.2.name.data ∧ '\x00' ∉ dn.2.qualified_name.data) :
    build_toc depth m toc =
        some (toc ++ (toc_nodes depth m).map (fun dn => toc_entry dn.1 dn.2)) ∧
      (∀ kv ∈ m, linkable kv.2 = true → (depth, kv.2) ∈ toc_nodes depth m) ∧
      (∀ dn ∈ toc_nodes depth m, linkable dn.2 = true ∧
        ∀ kv ∈ dn.2.children, linkable kv.2 = true →
          (dn.1 + 1, kv.2) ∈ toc_nodes depth m) :=
  ⟨build_toc_eq m depth toc h, toc_nodes_root m depth, toc_nodes_spec m depth⟩

theorem build_toc_entries_witness :
    build_toc 0 toc_tree [] = some ["* [C](#Class-C)\n", "    * [g](#Function-C::g)\n"] ∧
      build_toc 0 toc_tree [] =
        some ([] ++ (toc_nodes 0 toc_tree).map (fun dn => toc_entry dn.1 dn.2)) :=
  ⟨by decide, (build_toc_entries toc_tree 0 [] (by decide)).1⟩

/-! ## C20: the search `Header::find` -/

theorem all_names_cons (k : QualifiedName) (n : Node) (rest : NodeMap) :
    all_names ((k, n) :: rest) = node_names n ++ all_names rest := by
  rw [all_names]

theorem node_names_eq (n : Node) :
    node_names n = n.qualified_name :: all_names n.children := by
  cases n
  rw [node_names]
  rfl

theorem keys_ok_cons (k : QualifiedName) (n : Node) (rest : NodeMap) :
    keys_ok ((k, n) :: rest) = true ↔
      k = n.qualified_name ∧ keys_ok n.children = true ∧ keys_ok rest = true := by
  cases n
  rw [keys_ok, node_keys_ok]
  simp [Node.qualified_name, Node.children, and_assoc]

/-- A name is in the tree when it names a node of the map or a node below one of them. -/
theorem mem_all_names (name : QualifiedName) :
    ∀ m : NodeMap, name ∈ all_names m ↔
      name ∈ root_names m ∨ ∃ kv ∈ m, name ∈ all_names kv.2.children
  | [] => by simp [all_names, root_names]
  | (k, n) :: rest => by
    rw [all_names_cons, List.mem_append, mem_all_names name rest, node_names_eq]
    simp only [root_names, List.map_cons, List.mem_cons, exists_eq_or_imp]
    tauto

theorem lookup_keys_ok (name : QualifiedName) :
    ∀ m : NodeMap, keys_ok m = true →
      (∀ r, NodeMap.lookup name m = some r → r.qualified_name = name ∧ (name, r) ∈ m) ∧
      (NodeMap.lookup name m = none ↔ name ∉ root_names m)
  | [], _ => by simp [NodeMap.lookup, root_names]
  | (k, n) :: rest, h => by
    obtain ⟨hk, _, hrest⟩ := (keys_ok_cons k n rest).1 h
    obtain ⟨ih1, ih2⟩ := lookup_keys_ok name rest hrest
    unfold NodeMap.lookup
    by_cases he : k = name
    · simp only [he, if_true, Option.some.injEq]
      constructor
      · intro r hr
        subst hr
        exact ⟨by rw [← hk, he], by simp⟩
      · simp [root_names, ← hk, he]
    · simp only [he, if_false]
      constructor
      · intro r hr
        exact ⟨(ih1 r hr).1, List.mem_cons_of_mem _ (ih1 r hr).2⟩
      · rw [ih2]
        have hne : ¬ name = n.qualified_name := fun h2 => he (by rw [hk, h2])
        simp [root_names, hne]

mutual
theorem find_loop_spec (name : QualifiedName) :
    ∀ m : NodeMap, keys_ok m = true →
      (∀ r, find_loop name m = some r → r.qualified_name = name) ∧
      (find_loop name m = none ↔ ∀ kv ∈ m, name ∉ all_names kv.2.children)
  | [], _ => by simp [find_loop]
  | (k, n) :: rest, h => by
    obtain ⟨_, hn, hrest⟩ := (keys_ok_cons k n rest).1 h
    obtain ⟨i1, i2⟩ := find_in_spec name n hn
    obtain ⟨j1, j2⟩ := find_loop_spec name rest hrest
    rw [find_loop]
    cases hf : find_in name n with
    | some x =>
      simp only [Option.some.injEq, false_iff, reduceCtorEq]
      constructor
      · intro r hr
        exact i1 x hf ▸ (by rw [← hr])
      · intro hall
        have := hall (k, n) (by simp)
        exact absurd (i2.2 this) (by simp [hf])
    | none =>
      simp only
      refine ⟨j1, ?_⟩
      rw [j2]
      simp only [List.mem_cons, forall_eq_or_imp]
      constructor
      · intro hr
        exact ⟨i2.1 hf, hr⟩
      · intro hr
        exact hr.2
theorem find_in_spec (name : QualifiedName) :
    ∀ n : Node, keys_ok n.children = true →
      (∀ r, find_in name n = some r → r.qualified_name = name) ∧
      (find_in name n = none ↔ name ∉ all_names n.children)
  | .mk nm q kd a r d children, h => by
    simp only [Node.children] at h ⊢
    obtain ⟨l1, l2⟩ := lookup_keys_ok name children h
    obtain ⟨j1, j2⟩ := find_loop_spec name children h
    rw [find_in, mem_all_names]
    cases hl : NodeMap.lookup name children with
    | some x =>
      simp only [Option.some.injEq, false_iff, reduceCtorEq, not_not]
      constructor
      · intro r hr
        exact hr ▸ (l1 x hl).1
      · left
        by_contra hc
        exact absurd (l2.2 hc) (by simp [hl])
    | none =>
      simp only
      refine ⟨j1, ?_⟩
      rw [j2]
      constructor
      · intro hall hor
        rcases hor with hroot | ⟨kv, hkv, hmem⟩
        · exact (l2.1 hl) hroot
        · exact hall kv hkv hmem
      · intro hno kv hkv hmem
        exact hno (Or.inr ⟨kv, hkv, hmem⟩)
end

theorem find_eq_none_iff (m : NodeMap) (name : QualifiedName) (h : keys_ok m = true) :
    find m name = none ↔ name ∉ all_names m := by
  obtain ⟨_, l2⟩ := lookup_keys_ok name m h
  obtain ⟨_, j2⟩ := find_loop_spec name m h
  unfold find
  rw [mem_all_names]
  cases hl : NodeMap.lookup name m with
  | some x =>
    simp only [false_iff, reduceCtorEq, not_not]
    left
    by_contra hc
    exact absurd (l2.2 hc) (by simp [hl])
  | none =>
    simp only
    rw [j2]
    constructor
    · intro hall hor
      rcases hor with hroot | ⟨kv, hkv, hmem⟩
      · exact (l2.1 hl) hroot
      · exact hall kv hkv hmem
    · intro hno kv hkv hmem
      exact hno (Or.inr ⟨kv, hkv, hmem⟩)

theorem find_qualified_name (m : NodeMap) (name : QualifiedName) (h : keys_ok m = true)
    (r : Node) (hr : find m name = some r) : r.qualified_name = name := by
  unfold find at hr
  cases hl : NodeMap.lookup name m with
  | some x =>
    simp only [hl, Option.some.injEq] at hr
    exact hr ▸ ((lookup_keys_ok name m h).1 x hl).1
  | none =>
    simp only [hl] at hr
    exact (find_loop_spec name m h).1 r hr

/-- C20. In a tree whose keys are the qualified names of their nodes, `find`
returns a node exactly when some node of the tree, at any depth, has the name;
the node returned has the name; and a binding of the name in the map searched
is returned whatever lies deeper. -/
theorem find_specification (m : NodeMap) (name : QualifiedName) (h : keys_ok m = true) :
    ((find m name).isSome = true ↔ name ∈ all_names m) ∧
      (∀ r, find m name = some r → r.qualified_name = name) ∧
      (∀ r, NodeMap.lookup name m = some r → find m name = some r) := by
  refine ⟨?_, find_qualified_name m name h, ?_⟩
  · have := find_eq_none_iff m name h
    cases hf : find m name with
    | none =>
      simp only [Option.isSome_none, Bool.false_eq_true, false_iff]
      exact this.1 hf
    | some r =>
      simp only [Option.isSome_some, true_iff]
      by_contra hc
      exact absurd (this.2 hc) (by simp [hf])
  · intro r hr
    unfold find
    simp [hr]

theorem find_specification_witness :
    ((find [("C", dup_parent)] "C::f").isSome = true ↔
        "C::f" ∈ all_names [("C", dup_parent)]) ∧
      (∀ r, find [("C", dup_parent)] "C::f" = some r → r.qualified_name = "C::f") ∧
      (∀ r, NodeMap.lookup "C::f" [("C", dup_parent)] = some r →
        find [("C", dup_parent)] "C::f" = some r) :=
  find_specification [("C", dup_parent)] "C::f" (by decide)

/-! ## Events inside a function -/

/-- The variable `x` of the namespace `f` is replaced by the local variable `x`
of the function `f`: the duplicate rule of `Header::insert` runs before the
test of the parent. -/
theorem insert_function_parent_counterexample :
    isfunc FunctionDecl = true ∧
      (find local_tree "f::x").map Node.decl_range = some ⟨2, 2⟩ ∧
      (insert local_tree FunctionDecl "f" local_event).map
        (fun t => (find t "f::x").map Node.decl_range) = some (some ⟨9, 9⟩) := by
  decide

/-- The calls in which the test of the parent does its work: an event whose
parent is a function-like declaration leaves the tree as it was when the root
does not bind the qualified name of the event to an undocumented node. -/
theorem insert_function_parent_discards (declarations : NodeMap) (parent_kind : CXCursorKind)
    (parent_name : QualifiedName) (node : Node) (hf : isfunc parent_kind = true)
    (h : ∀ current, NodeMap.lookup node.qualified_name declarations = some current →
      current.doc_range.isSome = true) :
    insert declarations parent_kind parent_name node = some declarations := by
  unfold insert
  cases hl : NodeMap.lookup node.qualified_name declarations with
  | some current => simp [h current hl]
  | none => simp [hf]

theorem insert_function_parent_discards_witness :
    insert dup_tree CXXMethod "C::f" local_event = some dup_tree :=
  insert_function_parent_discards dup_tree CXXMethod "C::f" local_event (by decide)
    (fun current hc => by
      have hn : NodeMap.lookup local_event.qualified_name dup_tree = none := rfl
      rw [hn] at hc
      exact absurd hc (by simp))

/-! ## The effect of a write through the pointer of `find` -/

theorem NodeMap.lookup_cons_none (P k : QualifiedName) (n : Node) (rest : NodeMap) :
    NodeMap.lookup P ((k, n) :: rest) = none ↔ k ≠ P ∧ NodeMap.lookup P rest = none := by
  by_cases h : k = P
  · simp [NodeMap.lookup, h]
  · simp [NodeMap.lookup, h]

mutual
theorem find_update_loop_some (P : QualifiedName) (f : Node → Node) :
    ∀ (m : NodeMap) (p : Node), find_loop P m = some p →
      ∃ m', find_update_loop P f m = some m'
  | [], p, h => by simp [find_loop] at h
  | (k, n) :: rest, p, h => by
    rw [find_loop] at h
    rw [find_update_loop]
    cases hf : find_in P n with
    | some x =>
      obtain ⟨n', hn'⟩ := find_update_in_some P f n x hf
      exact ⟨(k, n') :: rest, by simp [hn']⟩
    | none =>
      simp only [hf] at h
      obtain ⟨rest', hr⟩ := find_update_loop_some P f rest p h
      cases hu : find_update_in P f n with
      | some n' => exact ⟨(k, n') :: rest, rfl⟩
      | none => exact ⟨(k, n) :: rest', by simp [hr]⟩
theorem find_update_in_some (P : QualifiedName) (f : Node → Node) :
    ∀ (n : Node) (p : Node), find_in P n = some p → ∃ n', find_update_in P f n = some n'
  | .mk nm q kd a r d c, p, h => by
    rw [find_in] at h
    rw [find_update_in]
    cases hl : NodeMap.lookup P c with
    | some x => exact ⟨_, rfl⟩
    | none =>
      simp only [hl] at h
      obtain ⟨c', hc⟩ := find_update_loop_some P f c p h
      exact ⟨.mk nm q kd a r d c', by simp [hc]⟩
end

theorem find_in_none_of_update_none (P : QualifiedName) (f : Node → Node) (n : Node)
    (h : find_update_in P f n = none) : find_in P n = none := by
  cases hf : find_in P n with
  | none => rfl
  | some p =>
    obtain ⟨n', hn'⟩ := find_update_in_some P f n p hf
    rw [h] at hn'
    exact absurd hn' (by simp)

mutual
theorem find_update_loop_rel (P : QualifiedName) (f : Node → Node) (B : Node → Prop)
    (RN : Node → Node → Prop) (RM : NodeMap → NodeMap → Prop)
    (c_replace : ∀ m x, NodeMap.lookup P m = some x → B x →
      RM m (NodeMap.replace P (f x) m))
    (c_head : ∀ k n n' rest, NodeMap.lookup P ((k, n) :: rest) = none → RN n n' →
      RM ((k, n) :: rest) ((k, n') :: rest))
    (c_tail : ∀ k n rest rest', NodeMap.lookup P ((k, n) :: rest) = none →
      find_in P n = none → RM rest rest' → RM ((k, n) :: rest) ((k, n) :: rest'))
    (c_node : ∀ nm q kd a r d c c', RM c c' →
      RN (.mk nm q kd a r d c) (.mk nm q kd a r d c')) :
    ∀ (m m' : NodeMap), NodeMap.lookup P m = none → find_update_loop P f m = some m' →
      (∀ p, find_loop P m = some p → B p) → RM m m'
  | [], m', _, h, _ => by simp [find_update_loop] at h
  | (k, n) :: rest, m', hl, h, hB => by
    rw [find_update_loop] at h
    cases hu : find_update_in P f n with
    | some n' =>
      simp only [hu, Option.some.injEq] at h
      subst h
      apply c_head k n n' rest hl
      apply find_update_in_rel P f B RN RM c_replace c_head c_tail c_node n n' hu
      intro p hp
      apply hB p
      rw [find_loop, hp]
    | none =>
      simp only [hu] at h
      cases hr : find_update_loop P f rest with
      | none => simp [hr] at h
      | some rest' =>
        simp only [hr, Option.some.injEq] at h
        subst h
        have hfn : find_in P n = none := find_in_none_of_update_none P f n hu
        apply c_tail k n rest rest' hl hfn
        apply find_update_loop_rel P f B RN RM c_replace c_head c_tail c_node rest rest'
          ((NodeMap.lookup_cons_none P k n rest).1 hl).2 hr
        intro p hp
        apply hB p
        rw [find_loop, hfn]
        exact hp
theorem find_update_in_rel (P : QualifiedName) (f : Node → Node) (B : Node → Prop)
    (RN : Node → Node → Prop) (RM : NodeMap → NodeMap → Prop)
    (c_replace : ∀ m x, NodeMap.lookup P m = some x → B x →
      RM m (NodeMap.replace P (f x) m))
    (c_head : ∀ k n n' rest, NodeMap.lookup P ((k, n) :: rest) = none → RN n n' →
      RM ((k, n) :: rest) ((k, n') :: rest))
    (c_tail : ∀ k n rest rest', NodeMap.lookup P ((k, n) :: rest) = none →
      find_in P n = none → RM rest rest' → RM ((k, n) :: rest) ((k, n) :: rest'))
    (c_node : ∀ nm q kd a r d c c', RM c c' →
      RN (.mk nm q kd a r d c) (.mk nm q kd a r d c')) :
    ∀ (n n' : Node), find_update_in P f n = some n' →
      (∀ p, find_in P n = some p → B p) → RN n n'
  | .mk nm q kd a r d c, n', h, hB => by
    rw [find_update_in] at h
    cases hl : NodeMap.lookup P c with
    | some x =>
      simp only [hl, Option.some.injEq] at h
      subst h
      apply c_node
      apply c_replace c x hl
      apply hB x
      rw [find_in, hl]
    | none =>
      simp only [hl] at h
      cases hu : find_update_loop P f c with
      | none => simp [hu] at h
      | some c' =>
        simp only [hu, Option.some.injEq] at h
        subst h
        apply c_node
        apply find_update_loop_rel P f B RN RM c_replace c_head c_tail c_node c c' hl hu
        intro p hp
        apply hB p
        rw [find_in, hl]
        exact hp
end

/-- A relation that holds across the replacement of the node found, across an
entry whose node changes, across the entries behind an entry without the name
and across a node whose children change, holds between the tree and the tree
written through the pointer of `find`. -/
theorem find_update_rel (P : QualifiedName) (f : Node → Node) (B : Node → Prop)
    (RN : Node → Node → Prop) (RM : NodeMap → NodeMap → Prop)
    (c_replace : ∀ m x, NodeMap.lookup P m = some x → B x →
      RM m (NodeMap.replace P (f x) m))
    (c_head : ∀ k n n' rest, NodeMap.lookup P ((k, n) :: rest) = none → RN n n' →
      RM ((k, n) :: rest) ((k, n') :: rest))
    (c_tail : ∀ k n rest rest', NodeMap.lookup P ((k, n) :: rest) = none →
      find_in P n = none → RM rest rest' → RM ((k, n) :: rest) ((k, n) :: rest'))
    (c_node : ∀ nm q kd a r d c c', RM c c' →
      RN (.mk nm q kd a r d c) (.mk nm q kd a r d c'))
    (m m' : NodeMap) (h : find_update m P f = some m')
    (hB : ∀ p, find m P = some p → B p) : RM m m' := by
  unfold find_update at h
  cases hl : NodeMap.lookup P m with
  | some x =>
    simp only [hl, Option.some.injEq] at h
    subst h
    apply c_replace m x hl
    apply hB x
    unfold find
    rw [hl]
  | none =>
    simp only [hl] at h
    apply find_update_loop_rel P f B RN RM c_replace c_head c_tail c_node m m' hl h
    intro p hp
    apply hB p
    unfold find
    rw [hl]
    exact hp

/-! ## C18: a member of a container -/

theorem NodeMap.lookup_replace_same (P : QualifiedName) (y : Node) :
    ∀ (m : NodeMap) (x : Node), NodeMap.lookup P m = some x →
      NodeMap.lookup P (NodeMap.replace P y m) = some y
  | [], x, h => by simp [NodeMap.lookup] at h
  | (k, n) :: rest, x, h => by
    by_cases hk : k = P
    · simp [NodeMap.replace, NodeMap.lookup, hk]
    · simp only [NodeMap.lookup, hk, if_false] at h
      simp only [NodeMap.replace, NodeMap.lookup, hk, if_false]
      exact NodeMap.lookup_replace_same P y rest x h

theorem NodeMap.lookup_replace_ne (P Q : QualifiedName) (y : Node) (hne : Q ≠ P) :
    ∀ (m : NodeMap), NodeMap.lookup Q (NodeMap.replace P y m) = NodeMap.lookup Q m
  | [] => rfl
  | (k, n) :: rest => by
    by_cases hk : k = P
    · have hq : ¬ k = Q := fun h => hne (h ▸ hk)
      simp [NodeMap.replace, NodeMap.lookup, hk, hq, Ne.symm hne]
    · by_cases hq : k = Q
      · simp only [NodeMap.replace, hk, if_false]
        simp [NodeMap.lookup, hq]
      · simp only [NodeMap.replace, NodeMap.lookup, hk, hq, if_false]
        exact NodeMap.lookup_replace_ne P Q y hne rest

theorem find_in_eq_find (name : QualifiedName) (n : Node) :
    find_in name n = find n.children name := by
  cases n
  rw [find_in]
  rfl

theorem find_cons_of_none (name k : QualifiedName) (n : Node) (rest : NodeMap)
    (hk : k ≠ name) (hn : find_in name n = none) :
    find ((k, n) :: rest) name = find rest name := by
  unfold find
  rw [find_loop, hn]
  simp only [NodeMap.lookup, hk, if_false]

theorem find_cons_of_some (name k : QualifiedName) (n : Node) (rest : NodeMap) (x : Node)
    (hl : NodeMap.lookup name ((k, n) :: rest) = none) (hn : find_in name n = some x) :
    find ((k, n) :: rest) name = some x := by
  unfold find
  rw [hl, find_loop, hn]

theorem find_of_lookup (m : NodeMap) (name : QualifiedName) (x : Node)
    (h : NodeMap.lookup name m = some x) : find m name = some x := by
  unfold find
  rw [h]

theorem Node.children_with_children (n : Node) (c : NodeMap) :
    (n.with_children c).children = c := by
  cases n
  rfl

theorem isfunc_of_iscontainer (kind : CXCursorKind) (h : iscontainer kind = true) :
    isfunc kind = false := by
  cases kind <;> first | rfl | exact absurd h (by decide)

theorem find_update_some (m : NodeMap) (P : QualifiedName) (f : Node → Node) (p : Node)
    (h : find m P = some p) : ∃ m', find_update m P f = some m' := by
  unfold find at h
  unfold find_update
  cases hl : NodeMap.lookup P m with
  | some x => exact ⟨_, rfl⟩
  | none =>
    simp only [hl] at h
    exact find_update_loop_some P f m p h

theorem map_edges_cons (k : QualifiedName) (n : Node) (rest : NodeMap) :
    map_edges ((k, n) :: rest) = node_edges n ++ map_edges rest := by
  rw [map_edges]

theorem node_edges_eq (n : Node) :
    node_edges n =
      (root_names n.children).map (fun c => (n.qualified_name, c)) ++ map_edges n.children := by
  cases n
  rw [node_edges]
  rfl

theorem root_names_subset (m : NodeMap) (q : QualifiedName) (h : q ∈ root_names m) :
    q ∈ all_names m :=
  (mem_all_names q m).2 (Or.inl h)

theorem mem_node_edges (n : Node) (pq cq : QualifiedName) :
    (pq, cq) ∈ node_edges n ↔
      (pq = n.qualified_name ∧ cq ∈ root_names n.children) ∨ (pq, cq) ∈ map_edges n.children := by
  rw [node_edges_eq, List.mem_append, List.mem_map]
  constructor
  · rintro (⟨c, hc, he⟩ | h)
    · simp only [Prod.mk.injEq] at he
      exact Or.inl ⟨he.1.symm, he.2 ▸ hc⟩
    · exact Or.inr h
  · rintro (⟨h1, h2⟩ | h)
    · exact Or.inl ⟨cq, h2, by rw [h1]⟩
    · exact Or.inr h

mutual
/-- Both ends of a parent-child pair are names of the tree, and a name of the
tree that is not a name of the root map is the child of a pair. -/
theorem map_edges_names :
    ∀ (m : NodeMap),
      (∀ pq cq, (pq, cq) ∈ map_edges m → pq ∈ all_names m) ∧
      (∀ q, q ∈ all_names m → q ∈ root_names m ∨ ∃ pq, (pq, q) ∈ map_edges m)
  | [] => by simp [map_edges, all_names]
  | (k, n) :: rest => by
    obtain ⟨a1, a2⟩ := node_edges_names n
    obtain ⟨b1, b2⟩ := map_edges_names rest
    rw [map_edges_cons, all_names_cons]
    constructor
    · intro pq cq h
      rcases List.mem_append.1 h with h | h
      · exact List.mem_append_left _ (a1 pq cq h)
      · exact List.mem_append_right _ (b1 pq cq h)
    · intro q h
      rcases List.mem_append.1 h with h | h
      · rcases a2 q h with h | ⟨pq, h⟩
        · left
          simp [root_names, h]
        · exact Or.inr ⟨pq, List.mem_append_left _ h⟩
      · rcases b2 q h with h | ⟨pq, h⟩
        · left
          simp only [root_names, List.map_cons, List.mem_cons]
          exact Or.inr h
        · exact Or.inr ⟨pq, List.mem_append_right _ h⟩
theorem node_edges_names :
    ∀ (n : Node),
      (∀ pq cq, (pq, cq) ∈ node_edges n → pq ∈ node_names n) ∧
      (∀ q, q ∈ node_names n → q = n.qualified_name ∨ ∃ pq, (pq, q) ∈ node_edges n)
  | .mk nm qn kd a r d c => by
    obtain ⟨b1, b2⟩ := map_edges_names c
    constructor
    · intro pq cq h
      rw [mem_node_edges] at h
      rw [node_names_eq]
      rcases h with ⟨h1, _⟩ | h
      · simp [h1]
      · exact List.mem_cons_of_mem _ (b1 pq cq h)
    · intro q h
      rw [node_names_eq] at h
      rcases List.mem_cons.1 h with h | h
      · exact Or.inl h
      · right
        rcases b2 q h with h | ⟨pq, h⟩
        · exact ⟨qn, (mem_node_edges _ _ _).2 (Or.inl ⟨rfl, h⟩)⟩
        · exact ⟨pq, (mem_node_edges _ _ _).2 (Or.inr h)⟩
end

mutual
/-- In a tree without repeated names the node that `find` returns for the
parent of a parent-child pair is the node that holds the child. -/
theorem map_edge_child (P Q : QualifiedName) :
    ∀ (m : NodeMap), keys_ok m = true → (all_names m).Nodup →
      ∀ p, find m P = some p → (P, Q) ∈ map_edges m →
        Q ∈ root_names p.children ∧ keys_ok p.children = true
  | [], _, _, p, hf, _ => by simp [find, NodeMap.lookup, find_loop] at hf
  | (k, n) :: rest, hkeys, hnd, p, hf, hedge => by
    obtain ⟨hk, hnc, hrest⟩ := (keys_ok_cons k n rest).1 hkeys
    rw [all_names_cons, node_names_eq, List.nodup_append, List.nodup_cons] at hnd
    obtain ⟨⟨hq, hndc⟩, hndr, hdis⟩ := hnd
    rw [map_edges_cons, List.mem_append, mem_node_edges] at hedge
    rcases hedge with (⟨h1, h2⟩ | h) | h
    · have hl : NodeMap.lookup P ((k, n) :: rest) = some n := by
        simp [NodeMap.lookup, hk, h1]
      rw [find_of_lookup _ P n hl] at hf
      simp only [Option.some.injEq] at hf
      subst hf
      exact ⟨h2, hnc⟩
    · have hP : P ∈ all_names n.children := (map_edges_names n.children).1 P Q h
      have hne : k ≠ P := by
        intro he
        rw [hk] at he
        exact hq (he ▸ hP)
      have hr : NodeMap.lookup P rest = none :=
        (lookup_keys_ok P rest hrest).2.2
          (fun hr => hdis (List.mem_cons_of_mem _ hP) (root_names_subset rest P hr))
      have hl : NodeMap.lookup P ((k, n) :: rest) = none :=
        (NodeMap.lookup_cons_none P k n rest).2 ⟨hne, hr⟩
      cases hfi : find n.children P with
      | none => exact absurd hP ((find_eq_none_iff n.children P hnc).1 hfi)
      | some x =>
        rw [find_cons_of_some P k n rest x hl (by rw [find_in_eq_find, hfi])] at hf
        simp only [Option.some.injEq] at hf
        subst hf
        exact node_edge_child P Q n hnc hndc x hfi h
    · have hP : P ∈ all_names rest := (map_edges_names rest).1 P Q h
      have hne : k ≠ P := by
        intro he
        rw [hk] at he
        exact hdis (by rw [he]; exact List.mem_cons_self _ _) hP
      have hfi : find_in P n = none := by
        rw [find_in_eq_find]
        exact (find_eq_none_iff n.children P hnc).2
          (fun hc => hdis (List.mem_cons_of_mem _ hc) hP)
      rw [find_cons_of_none P k n rest hne hfi] at hf
      exact map_edge_child P Q rest hrest hndr p hf h
theorem node_edge_child (P Q : QualifiedName) :
    ∀ (n : Node), keys_ok n.children = true → (all_names n.children).Nodup →
      ∀ p, find n.children P = some p → (P, Q) ∈ map_edges n.children →
        Q ∈ root_names p.children ∧ keys_ok p.children = true
  | .mk _ _ _ _ _ _ c, hkeys, hnd, p, hf, hedge => map_edge_child P Q c hkeys hnd p hf hedge
end

theorem root_names_cons (k : QualifiedName) (n : Node) (rest : NodeMap) :
    root_names ((k, n) :: rest) = n.qualified_name :: root_names rest := rfl

theorem all_names_ordered_insert (Q : QualifiedName) (node : Node) :
    ∀ m : NodeMap, (all_names (NodeMap.ordered_insert Q node m)).Perm
      (node_names node ++ all_names m)
  | [] => by
    rw [NodeMap.ordered_insert, all_names_cons]
  | (k, n) :: rest => by
    unfold NodeMap.ordered_insert
    split
    · rw [all_names_cons]
    · rw [all_names_cons, all_names_cons]
      exact ((all_names_ordered_insert Q node rest).append_left _).trans
        (List.perm_append_comm_assoc _ _ _)

theorem mem_root_names_ordered_insert (Q x : QualifiedName) (node : Node) :
    ∀ m : NodeMap, x ∈ root_names (NodeMap.ordered_insert Q node m) ↔
      x = node.qualified_name ∨ x ∈ root_names m
  | [] => by simp [NodeMap.ordered_insert, root_names]
  | (k, n) :: rest => by
    unfold NodeMap.ordered_insert
    split
    · simp [root_names]
    · rw [root_names_cons, root_names_cons, List.mem_cons, List.mem_cons,
        mem_root_names_ordered_insert Q x node rest]
      tauto

theorem mem_map_edges_ordered_insert (Q : QualifiedName) (node : Node)
    (e : QualifiedName × QualifiedName) :
    ∀ m : NodeMap, e ∈ map_edges (NodeMap.ordered_insert Q node m) ↔
      e ∈ node_edges node ∨ e ∈ map_edges m
  | [] => by
    rw [NodeMap.ordered_insert, map_edges_cons, List.mem_append]
  | (k, n) :: rest => by
    unfold NodeMap.ordered_insert
    split
    · rw [map_edges_cons, List.mem_append]
    · rw [map_edges_cons, map_edges_cons, List.mem_append, List.mem_append,
        mem_map_edges_ordered_insert Q node e rest]
      tauto

theorem keys_ok_ordered_insert (Q : QualifiedName) (node : Node)
    (hq : Q = node.qualified_name) (hc : keys_ok node.children = true) :
    ∀ m : NodeMap, keys_ok m = true → keys_ok (NodeMap.ordered_insert Q node m) = true
  | [], _ => by
    rw [NodeMap.ordered_insert, keys_ok_cons]
    exact ⟨hq, hc, rfl⟩
  | (k, n) :: rest, h => by
    obtain ⟨h1, h2, h3⟩ := (keys_ok_cons k n rest).1 h
    unfold NodeMap.ordered_insert
    split
    · rw [keys_ok_cons]
      exact ⟨hq, hc, h⟩
    · rw [keys_ok_cons]
      exact ⟨h1, h2, keys_ok_ordered_insert Q node hq hc rest h3⟩

theorem Node.qualified_name_with_children (n : Node) (c : NodeMap) :
    (n.with_children c).qualified_name = n.qualified_name := by
  cases n
  rfl

/-- A node that gains a child without children of the name `Q`. -/
theorem grown_node_insert (P Q : QualifiedName) (node x : Node)
    (hq : node.qualified_name = Q) (hc : node.children = [])
    (hx : x.qualified_name = P) (hl : NodeMap.lookup Q x.children = none) :
    grown_node P Q x (x.with_children (NodeMap.insert Q node x.children)) := by
  have hn : node_names node = [Q] := by
    rw [node_names_eq, hq, hc]
    rfl
  have he : node_edges node = [] := by
    rw [node_edges_eq, hc]
    rfl
  have hi : NodeMap.insert Q node x.children = NodeMap.ordered_insert Q node x.children := by
    unfold NodeMap.insert
    rw [hl]
  rw [hi]
  refine ⟨Node.qualified_name_with_children _ _, ?_, ?_, ?_⟩
  · rw [node_names_eq, node_names_eq, Node.children_with_children,
      Node.qualified_name_with_children]
    have h := all_names_ordered_insert Q node x.children
    rw [hn] at h
    exact (h.cons _).trans (List.Perm.swap _ _ _)
  · intro hk
    rw [Node.children_with_children]
    exact keys_ok_ordered_insert Q node hq.symm (by rw [hc]; rfl) _ hk
  · intro e hmem
    obtain ⟨pq, cq⟩ := e
    rw [mem_node_edges, Node.children_with_children, Node.qualified_name_with_children,
      mem_root_names_ordered_insert, mem_map_edges_ordered_insert, he] at hmem
    rcases hmem with ⟨h1, h2 | h2⟩ | h | h
    · left
      rw [h1, h2, hx, hq]
    · exact Or.inr ((mem_node_edges _ _ _).2 (Or.inl ⟨h1, h2⟩))
    · exact absurd h (List.not_mem_nil _)
    · exact Or.inr ((mem_node_edges _ _ _).2 (Or.inr h))

theorem grown_map_replace (P Q : QualifiedName) (x y : Node) (hxy : grown_node P Q x y) :
    ∀ m : NodeMap, NodeMap.lookup P m = some x → grown_map P Q m (NodeMap.replace P y m)
  | [], h => by simp [NodeMap.lookup] at h
  | (k, n) :: rest, h => by
    obtain ⟨g1, g2, g3, g4⟩ := hxy
    unfold NodeMap.lookup at h
    unfold NodeMap.replace
    by_cases hk : k = P
    · simp only [hk, if_true, Option.some.injEq] at h ⊢
      subst h
      refine ⟨?_, ?_, ?_, ?_⟩
      · rw [root_names_cons, root_names_cons, g1]
      · rw [all_names_cons, all_names_cons]
        exact g2.append_right _
      · intro hkeys
        obtain ⟨h1, h2, h3⟩ := (keys_ok_cons _ _ _).1 hkeys
        exact (keys_ok_cons _ _ _).2 ⟨by rw [g1]; exact h1, g3 h2, h3⟩
      · intro e hmem
        rw [map_edges_cons, List.mem_append] at hmem ⊢
        rcases hmem with hmem | hmem
        · rcases g4 e hmem with h1 | h1
          · exact Or.inl h1
          · exact Or.inr (Or.inl h1)
        · exact Or.inr (Or.inr hmem)
    · simp only [hk, if_false] at h ⊢
      obtain ⟨i1, i2, i3, i4⟩ := grown_map_replace P Q x y ⟨g1, g2, g3, g4⟩ rest h
      refine ⟨?_, ?_, ?_, ?_⟩
      · rw [root_names_cons, root_names_cons, i1]
      · rw [all_names_cons, all_names_cons]
        exact (i2.append_left _).trans List.perm_middle
      · intro hkeys
        obtain ⟨h1, h2, h3⟩ := (keys_ok_cons _ _ _).1 hkeys
        exact (keys_ok_cons _ _ _).2 ⟨h1, h2, i3 h3⟩
      · intro e hmem
        rw [map_edges_cons, List.mem_append] at hmem ⊢
        rcases hmem with hmem | hmem
        · exact Or.inr (Or.inl hmem)
        · rcases i4 e hmem with h1 | h1
          · exact Or.inl h1
          · exact Or.inr (Or.inr h1)

/-- The tree after `Header::insert` put a new member under the node that `find`
returns for the parent. -/
theorem find_update_grown (P Q : QualifiedName) (node : Node) (m m' : NodeMap)
    (hq : node.qualified_name = Q) (hc : node.children = [])
    (h : find_update m P (fun parent_node =>
      parent_node.with_children (NodeMap.insert Q node parent_node.children)) = some m')
    (hB : ∀ p, find m P = some p →
      p.qualified_name = P ∧ NodeMap.lookup Q p.children = none) :
    grown_map P Q m m' := by
  apply find_update_rel P _ (fun p => p.qualified_name = P ∧ NodeMap.lookup Q p.children = none)
    (grown_node P Q) (grown_map P Q) ?_ ?_ ?_ ?_ m m' h hB
  · intro m x hl ⟨hx, hlq⟩
    exact grown_map_replace P Q x _ (grown_node_insert P Q node x hq hc hx hlq) m hl
  · intro k n n' rest _ ⟨g1, g2, g3, g4⟩
    refine ⟨?_, ?_, ?_, ?_⟩
    · rw [root_names_cons, root_names_cons, g1]
    · rw [all_names_cons, all_names_cons]
      exact g2.append_right _
    · intro hkeys
      obtain ⟨h1, h2, h3⟩ := (keys_ok_cons _ _ _).1 hkeys
      exact (keys_ok_cons _ _ _).2 ⟨by rw [g1]; exact h1, g3 h2, h3⟩
    · intro e hmem
      rw [map_edges_cons, List.mem_append] at hmem ⊢
      rcases hmem with hmem | hmem
      · rcases g4 e hmem with h1 | h1
        · exact Or.inl h1
        · exact Or.inr (Or.inl h1)
      · exact Or.inr (Or.inr hmem)
  · intro k n rest rest' _ _ ⟨i1, i2, i3, i4⟩
    refine ⟨?_, ?_, ?_, ?_⟩
    · rw [root_names_cons, root_names_cons, i1]
    · rw [all_names_cons, all_names_cons]
      exact (i2.append_left _).trans List.perm_middle
    · intro hkeys
      obtain ⟨h1, h2, h3⟩ := (keys_ok_cons _ _ _).1 hkeys
      exact (keys_ok_cons _ _ _).2 ⟨h1, h2, i3 h3⟩
    · intro e hmem
      rw [map_edges_cons, List.mem_append] at hmem ⊢
      rcases hmem with hmem | hmem
      · exact Or.inr (Or.inl hmem)
      · rcases i4 e hmem with h1 | h1
        · exact Or.inl h1
        · exact Or.inr (Or.inr h1)
  · intro nm q kd a r d c c' ⟨i1, i2, i3, i4⟩
    refine ⟨rfl, ?_, ?_, ?_⟩
    · rw [node_names_eq, node_names_eq]
      exact (i2.cons _).trans (List.Perm.swap _ _ _)
    · exact i3
    · intro e hmem
      obtain ⟨pq, cq⟩ := e
      rw [mem_node_edges] at hmem ⊢
      rcases hmem with ⟨h1, h2⟩ | hmem
      · right
        left
        refine ⟨h1, ?_⟩
        have : root_names c' = root_names c := i1
        simpa [Node.children, this] using h2
      · rcases i4 _ hmem with h1 | h1
        · exact Or.inl h1
        · exact Or.inr (Or.inr h1)

/-- The root entry of a name overwritten by a node without children. -/
theorem replace_leaf (Q : QualifiedName) (y : Node) (hq : y.qualified_name = Q)
    (hc : y.children = []) :
    ∀ (m : NodeMap) (current : Node), keys_ok m = true →
      NodeMap.lookup Q m = some current →
      (all_names (NodeMap.replace Q y m)).Sublist (all_names m) ∧
        keys_ok (NodeMap.replace Q y m) = true ∧
        ∀ e ∈ map_edges (NodeMap.replace Q y m), e ∈ map_edges m
  | [], _, _, h => by simp [NodeMap.lookup] at h
  | (k, n) :: rest, current, hkeys, h => by
    obtain ⟨h1, h2, h3⟩ := (keys_ok_cons k n rest).1 hkeys
    unfold NodeMap.lookup at h
    unfold NodeMap.replace
    by_cases hk : k = Q
    · simp only [hk, if_true]
      refine ⟨?_, ?_, ?_⟩
      · rw [all_names_cons, all_names_cons, node_names_eq, node_names_eq, hq, hc, ← h1, hk]
        exact List.Sublist.append
          (List.Sublist.cons₂ Q (List.nil_sublist _)) (List.Sublist.refl _)
      · rw [keys_ok_cons]
        exact ⟨hq.symm, by rw [hc]; rfl, h3⟩
      · intro e hmem
        rw [map_edges_cons, node_edges_eq, hc] at hmem
        rw [map_edges_cons]
        exact List.mem_append_right _ (by simpa [root_names, map_edges] using hmem)
    · simp only [hk, if_false] at h ⊢
      obtain ⟨i1, i2, i3⟩ := replace_leaf Q y hq hc rest current h3 h
      refine ⟨?_, ?_, ?_⟩
      · rw [all_names_cons, all_names_cons]
        exact List.Sublist.append (List.Sublist.refl _) i1
      · rw [keys_ok_cons]
        exact ⟨h1, h2, i2⟩
      · intro e hmem
        rw [map_edges_cons, List.mem_append] at hmem ⊢
        rcases hmem with hmem | hmem
        · exact Or.inl hmem
        · exact Or.inr (i3 e hmem)

/-- One call of `Header::insert` keeps the invariant of the tree. -/
theorem ingest_step (past : List Event) (tree : NodeMap) (e : Event)
    (hinv : tree_inv past tree)
    (hsame : ∀ e0 ∈ past, e0.qualified_name = e.qualified_name →
      e0.parent_kind = e.parent_kind ∧ e0.parent_name = e.parent_name)
    (hpresent : iscontainer e.parent_kind = true → find tree e.parent_name ≠ none) :
    ∃ t1, ingest tree e = some t1 ∧ tree_inv (past ++ [e]) t1 := by
  obtain ⟨hk, hnd, hD⟩ := hinv
  have hq : e.node.qualified_name = e.qualified_name := rfl
  have hc : e.node.children = [] := rfl
  have hold : ∀ pq cq, (pq, cq) ∈ map_edges tree →
      ∃ e0 ∈ past ++ [e], e0.qualified_name = cq ∧ iscontainer e0.parent_kind = true ∧
        e0.parent_name = pq := by
    intro pq cq h
    obtain ⟨e0, h0, h1⟩ := hD pq cq h
    exact ⟨e0, List.mem_append_left _ h0, h1⟩
  have hsame_tree : tree_inv (past ++ [e]) tree := ⟨hk, hnd, hold⟩
  have hn : node_names e.node = [e.qualified_name] := by
    rw [node_names_eq, hq, hc]
    rfl
  have he : node_edges e.node = [] := by
    rw [node_edges_eq, hc]
    rfl
  unfold ingest insert
  rw [hq]
  cases hl : NodeMap.lookup e.qualified_name tree with
  | some current =>
    simp only
    by_cases hdoc : current.doc_range.isSome = true
    · rw [if_pos hdoc]
      exact ⟨tree, rfl, hsame_tree⟩
    · rw [if_neg hdoc]
      refine ⟨_, rfl, ?_⟩
      have ha : NodeMap.assign e.qualified_name e.node tree =
          NodeMap.replace e.qualified_name e.node tree := by
        unfold NodeMap.assign
        rw [hl]
      rw [ha]
      obtain ⟨i1, i2, i3⟩ := replace_leaf e.qualified_name e.node hq hc tree current hk hl
      exact ⟨i2, hnd.sublist i1, fun pq cq h => hold pq cq (i3 _ h)⟩
  | none =>
    simp only
    have hroot : e.qualified_name ∉ root_names tree := (lookup_keys_ok _ tree hk).2.1 hl
    by_cases hf : isfunc e.parent_kind = true
    · rw [if_pos hf]
      exact ⟨tree, rfl, hsame_tree⟩
    · rw [if_neg hf]
      by_cases hcont : iscontainer e.parent_kind = true
      · rw [if_pos hcont]
        cases hfind : find tree e.parent_name with
        | none => exact absurd hfind (hpresent hcont)
        | some p =>
          have hpq : p.qualified_name = e.parent_name :=
            find_qualified_name tree e.parent_name hk p hfind
          cases hlc : NodeMap.lookup e.qualified_name p.children with
          | some old =>
            refine ⟨tree, ?_, hsame_tree⟩
            apply find_update_fixed tree e.parent_name _ p hfind
            have hi : NodeMap.insert e.qualified_name e.node p.children = p.children := by
              unfold NodeMap.insert
              rw [hlc]
            show p.with_children (NodeMap.insert e.qualified_name e.node p.children) = p
            rw [hi]
            cases p
            rfl
          | none =>
            have hnew : e.qualified_name ∉ all_names tree := by
              intro hmem
              rcases (map_edges_names tree).2 _ hmem with h | ⟨pq, h⟩
              · exact hroot h
              · obtain ⟨e0, h0, h1, h2, h3⟩ := hD pq _ h
                obtain ⟨_, h5⟩ := hsame e0 h0 h1
                rw [← h3, h5] at h
                obtain ⟨h6, h7⟩ := map_edge_child _ _ tree hk hnd p hfind h
                exact absurd hlc (by
                  intro hcontra
                  exact (lookup_keys_ok _ p.children h7).2.1 hcontra h6)
            obtain ⟨t1, ht1⟩ := find_update_some tree e.parent_name
              (fun parent_node => parent_node.with_children
                (NodeMap.insert e.qualified_name e.node parent_node.children)) p hfind
            refine ⟨t1, ht1, ?_⟩
            obtain ⟨_, g2, g3, g4⟩ := find_update_grown e.parent_name e.qualified_name e.node
              tree t1 hq hc ht1 (fun p' hp' => by
                rw [hfind] at hp'
                cases hp'
                exact ⟨hpq, hlc⟩)
            refine ⟨g3 hk, g2.nodup_iff.2 (List.nodup_cons.2 ⟨hnew, hnd⟩), ?_⟩
            intro pq cq h
            rcases g4 _ h with h | h
            · simp only [Prod.mk.injEq] at h
              exact ⟨e, by simp, h.2.symm, hcont, h.1.symm⟩
            · exact hold pq cq h
      · rw [if_neg hcont]
        refine ⟨_, rfl, ?_⟩
        have hi : NodeMap.insert e.qualified_name e.node tree =
            NodeMap.ordered_insert e.qualified_name e.node tree := by
          unfold NodeMap.insert
          rw [hl]
        rw [hi]
        have hnew : e.qualified_name ∉ all_names tree := by
          intro hmem
          rcases (map_edges_names tree).2 _ hmem with h | ⟨pq, h⟩
          · exact hroot h
          · obtain ⟨e0, h0, h1, h2, _⟩ := hD pq _ h
            obtain ⟨h4, _⟩ := hsame e0 h0 h1
            rw [h4] at h2
            exact hcont h2
        have hperm := all_names_ordered_insert e.qualified_name e.node tree
        rw [hn] at hperm
        refine ⟨keys_ok_ordered_insert _ _ hq.symm (by rw [hc]; rfl) tree hk,
          hperm.nodup_iff.2 (List.nodup_cons.2 ⟨hnew, hnd⟩), ?_⟩
        intro pq cq h
        rw [mem_map_edges_ordered_insert, he] at h
        rcases h with h | h
        · exact absurd h (List.not_mem_nil _)
        · exact hold pq cq h

/-- The invariant of the tree holds after any sequence of events in which
events of one name report one parent and container parents are present. -/
theorem ingest_all_inv :
    ∀ (future past : List Event) (tree : NodeMap), tree_inv past tree →
      (∀ e1 ∈ past ++ future, ∀ e2 ∈ past ++ future, e1.qualified_name = e2.qualified_name →
        e1.parent_kind = e2.parent_kind ∧ e1.parent_name = e2.parent_name) →
      (∀ i e, future[i]? = some e → iscontainer e.parent_kind = true →
        ∀ t, ingest_all tree (future.take i) = some t → find t e.parent_name ≠ none) →
      ∃ tree', ingest_all tree future = some tree' ∧ tree_inv (past ++ future) tree'
  | [], past, tree, hinv, _, _ => ⟨tree, rfl, by rw [List.append_nil]; exact hinv⟩
  | e :: es, past, tree, hinv, hsame, hpresent => by
    obtain ⟨t1, h1, hinv1⟩ := ingest_step past tree e hinv
      (fun e0 h0 => hsame e0 (List.mem_append_left _ h0) e
        (List.mem_append_right _ (List.mem_cons_self _ _)))
      (fun hcont => hpresent 0 e (by simp) hcont tree rfl)
    have happ : past ++ e :: es = (past ++ [e]) ++ es := by simp
    obtain ⟨t2, h2, hinv2⟩ := ingest_all_inv es (past ++ [e]) t1 hinv1
      (by rw [← happ]; exact hsame)
      (fun i e' hi hcont t ht => hpresent (i + 1) e' (by simpa using hi) hcont t (by
        rw [List.take_succ_cons, ingest_all, h1]
        exact ht))
    refine ⟨t2, ?_, by rw [happ]; exact hinv2⟩
    rw [ingest_all, h1]
    exact h2

/-- C19. Starting from the empty tree, after `Header::insert` took any
sequence of events in which events with equal qualified names report the same
parent (kind and qualified name) and the parent of every event with a container
parent is found in the tree when the event arrives, every call returned, no
qualified name occurs twice in the tree, at any depth, and every key is the
qualified name of the node it maps to. -/
theorem ingest_all_unique (events : List Event)
    (hsame : ∀ e1 ∈ events, ∀ e2 ∈ events, e1.qualified_name = e2.qualified_name →
      e1.parent_kind = e2.parent_kind ∧ e1.parent_name = e2.parent_name)
    (hpresent : ∀ i e, events[i]? = some e → iscontainer e.parent_kind = true →
      ∀ t, ingest_all [] (events.take i) = some t → find t e.parent_name ≠ none) :
    ∃ tree, ingest_all [] events = some tree ∧ (all_names tree).Nodup ∧
      keys_ok tree = true := by
  have h0 : tree_inv [] [] :=
    ⟨rfl, by simp [all_names], fun pq cq h => by simp [map_edges] at h⟩
  obtain ⟨tree, h1, h2, h3, _⟩ := ingest_all_inv events [] [] h0 (by simpa using hsame) hpresent
  exact ⟨tree, h1, h3, h2⟩

theorem ingest_all_unique_witness :
    (ingest_all [] struct_events).map all_names = some ["S", "S::a"] ∧
      ∃ tree, ingest_all [] struct_events = some tree ∧ (all_names tree).Nodup ∧
        keys_ok tree = true :=
  ⟨by decide, ingest_all_unique struct_events
    (by
      intro e1 h1 e2 h2
      simp only [struct_events, List.mem_cons, List.mem_singleton, List.not_mem_nil,
        or_false] at h1 h2
      rcases h1 with h1 | h1 | h1 <;> rcases h2 with h2 | h2 | h2 <;> subst h1 <;> subst h2 <;>
        decide)
    (by
      intro i e hi hcont t ht
      match i, hi, ht with
      | 0, hi, _ =>
        simp only [struct_events, List.getElem?_cons_zero, Option.some.injEq] at hi
        subst hi
        exact absurd hcont (by decide)
      | 1, hi, _ =>
        simp only [struct_events, List.getElem?_cons_succ, List.getElem?_cons_zero,
          Option.some.injEq] at hi
        subst hi
        exact absurd hcont (by decide)
      | 2, hi, ht =>
        simp only [struct_events, List.getElem?_cons_succ, List.getElem?_cons_zero,
          Option.some.injEq] at hi
        subst hi
        have hp : ingest_all [] (struct_events.take 2) =
            some [("S", .mk "S" "S" StructDecl InvalidAccessSpecifier ⟨2, 4⟩ none [])] := rfl
        rw [hp] at ht
        simp only [Option.some.injEq] at ht
        subst ht
        intro h
        exact absurd (congrArg Option.isSome h) (by decide)
      | n + 3, hi, _ =>
        simp [struct_events] at hi)⟩

/-! ## C21: a comment block on the first line of the file -/

/-- The loop of `find_doc` inside a comment block that reaches up to the first
line: after the line at index 0 the index wraps around and the loop reads
outside the line store, whatever the number of iterations allowed. -/
theorem find_doc_loop_top (lines : List String) (hlen : lines.length < 2 ^ 32)
    (rep end_ : Nat) (hr : rep < 2) :
    ∀ (linenum fuel : Nat) (found : Bool),
      (∀ i, i ≤ linenum → ∃ l, lines[i]? = some l ∧ is_comment_line l = true) →
      find_doc_loop lines fuel linenum rep end_ found = none
  | _, 0, _, _ => rfl
  | 0, fuel + 1, found, hrun => by
    obtain ⟨l, hl, hc⟩ := hrun 0 (Nat.le_refl _)
    rw [find_doc_loop_comment lines fuel 0 rep end_ found l hr hl hc]
    have hd0 : dec32 0 = 4294967295 := by decide
    have hout : lines[4294967295]? = none := List.getElem?_eq_none (by omega)
    rw [hd0]
    cases fuel with
    | zero => rfl
    | succ fuel => simp [find_doc_loop, hr, hout]
  | linenum + 1, fuel + 1, found, hrun => by
    obtain ⟨l, hl, hc⟩ := hrun (linenum + 1) (Nat.le_refl _)
    have hlt : linenum + 1 < lines.length := by
      by_contra hcon
      rw [List.getElem?_eq_none (by omega)] at hl
      exact absurd hl (by simp)
    rw [find_doc_loop_comment lines fuel (linenum + 1) rep end_ found l hr hl hc,
      dec32_pos (linenum + 1) (by omega) (by omega)]
    exact find_doc_loop_top lines hlen rep end_ hr linenum fuel true
      (fun i hi => hrun i (by omega))

/-- C21. When the lines `1..k` of the line store, `k >= 1`, are all comment
lines and line `k+1` is a declaration line that is not a comment, `find_doc(k+1)`
does not return the range `(0, k-1)`: after the comment line at index 0 the
unsigned index wraps around to `2^32 - 1` and the loop reads `lines[2^32-1]`,
outside the line store. No number of iterations makes the loop return. -/
theorem find_doc_top_comment_out_of_range (lines : List String) (k : Nat) (decl : String)
    (hk : 1 ≤ k) (hlen : lines.length < 2 ^ 32)
    (hcom : ∀ i, i < k → ∃ l, lines[i]? = some l ∧ is_comment_line l = true)
    (hdecl : lines[k]? = some decl) (hd : is_comment_line decl = false) :
    find_doc lines (k + 1) = none ∧
      (∀ fuel, find_doc_loop lines fuel k 0 k false = none) ∧
      lines[dec32 0]? = none := by
  have hkl : k < lines.length := by
    by_contra hcon
    rw [List.getElem?_eq_none (by omega)] at hdecl
    exact absurd hdecl (by simp)
  have hloop : ∀ fuel, find_doc_loop lines fuel k 0 k false = none := by
    intro fuel
    cases fuel with
    | zero => rfl
    | succ fuel =>
      rw [find_doc_loop_gap lines fuel k 0 k decl (by omega) hdecl hd,
        dec32_pos k (by omega) (by omega)]
      exact find_doc_loop_top lines hlen 1 (k - 1) (by omega) (k - 1) fuel false
        (fun i hi => hcom i (by omega))
  refine ⟨?_, hloop, ?_⟩
  · unfold find_doc
    have hdk : dec32 (k + 1) = k := by
      rw [dec32_pos (k + 1) (by omega) (by omega)]
      rfl
    simp only [hdk]
    rw [if_neg (by omega)]
    exact hloop _
  · have hd0 : dec32 0 = 4294967295 := by decide
    rw [hd0]
    exact List.getElem?_eq_none (by omega)

theorem find_doc_top_comment_out_of_range_witness :
    find_doc top_comment_lines 2 = none :=
  (find_doc_top_comment_out_of_range top_comment_lines 1 "int answer;" (by decide) (by decide)
    (fun i hi => by
      have h0 : i = 0 := by omega
      subst h0
      exact ⟨"// The answer", rfl, by decide⟩)
    rfl (by decide)).1

/-! ## C22: the access headers of the member list -/

theorem access_header_nil (parent_kind : CXCursorKind) (access : CX_CXXAccessSpecifier) :
    access_header parent_kind access [] =
      (spec_access_header parent_kind none access).toList := by
  cases access <;> cases parent_kind <;> rfl

theorem spec_access_header_some (parent_kind : CXCursorKind)
    (previous access : CX_CXXAccessSpecifier) :
    (spec_access_header parent_kind (some previous) access).toList =
      if access ≠ previous then access_header parent_kind access [] else [] := by
  cases access <;> cases previous <;> cases parent_kind <;> rfl

theorem member_fragments_spec (parent_kind : CXCursorKind) :
    ∀ (members : List (Node × String)) (access : CX_CXXAccessSpecifier),
      member_fragments parent_kind access members =
        spec_member_fragments parent_kind (some access) members
  | [], _ => rfl
  | (node, line) :: rest, access => by
    rw [member_fragments, spec_member_fragments, spec_access_header_some,
      member_fragments_spec parent_kind rest node.access]

theorem member_fragments_spec_first (parent_kind : CXCursorKind) :
    ∀ (members : List (Node × String)),
      member_fragments parent_kind InvalidAccessSpecifier members =
        spec_member_fragments parent_kind none members
  | [] => rfl
  | (node, line) :: rest => by
    rw [member_fragments, spec_member_fragments, member_fragments_spec parent_kind rest]
    congr 1
    rw [access_header_nil]
    cases hn : node.access <;> cases parent_kind <;> rfl

/-- C22. The fragments that `append_child_nodes` adds are those of
`spec_member_fragments`: each line of a rendered member, and immediately in
front of it an access header exactly when the access level of the member
differs from that of the previously rendered member (there is none before the
first) and the header is `protected:`, `private:`, or `public:` in a class
kind; the closing step only shortens the last fragment. The class of
`access_lines` shows the three headers. -/
theorem append_child_nodes_access_headers (lines : List String) (options : Options)
    (parent : Node) (indent : Nat) (compiled : List String) (sorted : List Node) :
    append_child_nodes_sorted lines options parent.kind sorted indent compiled =
        (all_some ((rendered_members options sorted []).map (member_line lines indent))).map
          (fun ls => remove_extra_line_ending (compiled ++
            spec_member_fragments parent.kind none
              ((rendered_members options sorted []).zip ls))) ∧
      (∀ previous access h,
        spec_access_header parent.kind previous access = some h ↔
          previous ≠ some access ∧
            ((access = Protected ∧ h = "protected:\n") ∨
              (access = Private ∧ h = "private:\n") ∨
              (access = Public ∧ isclass parent.kind = true ∧ h = "public:\n"))) ∧
      append_child_nodes access_lines ⟨true, true, false, "", ""⟩ access_class 4 [] =
        some ["public:\n", "    int a;\n\n", "    int b;\n\n", "protected:\n",
          "    int c;\n\n", "private:\n", "    int d;\n"] := by
  refine ⟨?_, ?_, by decide⟩
  · unfold append_child_nodes_sorted
    rw [child_nodes_loop_eq]
    cases all_some ((rendered_members options sorted []).map (member_line lines indent)) with
    | none => rfl
    | some ls =>
      simp only [Option.map_some']
      rw [member_fragments_spec_first]
  · intro previous access h
    unfold spec_access_header
    by_cases hp : previous = some access
    · simp [hp]
    · rw [if_neg hp]
      cases access with
      | InvalidAccessSpecifier =>
        constructor
        · intro e
          cases e
        · rintro ⟨_, ⟨e, _⟩ | ⟨e, _⟩ | ⟨e, _⟩⟩ <;> cases e
      | Public =>
        show (if isclass parent.kind = true then some "public:\n" else none) = some h ↔ _
        by_cases hc : isclass parent.kind = true
        · rw [if_pos hc]
          constructor
          · intro e
            injection e with e
            exact ⟨hp, Or.inr (Or.inr ⟨rfl, hc, e.symm⟩)⟩
          · rintro ⟨_, ⟨e, _⟩ | ⟨e, _⟩ | ⟨_, _, e⟩⟩
            · cases e
            · cases e
            · rw [e]
        · rw [if_neg hc]
          constructor
          · intro e
            cases e
          · rintro ⟨_, ⟨e, _⟩ | ⟨e, _⟩ | ⟨_, e, _⟩⟩
            · cases e
            · cases e
            · exact absurd e hc
      | Protected =>
        show some "protected:\n" = some h ↔ _
        constructor
        · intro e
          injection e with e
          exact ⟨hp, Or.inl ⟨rfl, e.symm⟩⟩
        · rintro ⟨_, ⟨_, e⟩ | ⟨e, _⟩ | ⟨e, _⟩⟩
          · rw [e]
          · cases e
          · cases e
      | Private =>
        show some "private:\n" = some h ↔ _
        constructor
        · intro e
          injection e with e
          exact ⟨hp, Or.inr (Or.inl ⟨rfl, e.symm⟩)⟩
        · rintro ⟨_, ⟨e, _⟩ | ⟨_, e⟩ | ⟨e, _⟩⟩
          · cases e
          · rw [e]
          · cases e

/-! ## C23: the fragments of a documented declaration -/

set_option maxRecDepth 100000 in
/-- C23 as stated fails: a comment of 520 characters is cut off after 510
characters, and the blank line after it is lost. -/
theorem build_long_comment_counterexample :
    (parse_comment long_comment_lines ⟨1, 1⟩).map (fun c => c.data.length) = some 520 ∧
      (build_map long_comment_lines ⟨false, true, false, "", ""⟩ 0 long_comment_tree []).map
        (fun compiled => (compiled.map (fun s => s.data.length),
          compiled.getLast?.bind (fun s => s.data.getLast?))) =
        some ([17, 7, 7, 4, 510], some 'x') := by
  decide

theorem snprintf_short (size : Nat) (s : String) (h : s.data.length ≤ size - 1) :
    snprintf size s = s := by
  apply String.ext
  unfold snprintf
  exact List.take_of_length_le h

/-- C23 amended. For a visible node that is not rendered as a multi-line
container, is not field kind, has a printable label and carries a documentation
range for which `parse_source` and `parse_comment` return, `Header::build(map,
depth)` emits five fragments in order: heading, opening fence, signature line,
closing fence and comment, where the heading, the signature line and the
comment pass through the formatted `append`, which keeps the first 510
characters. When the three hold no NUL and are at most 510 characters long
they are emitted whole. A node of that shape without a documentation range
emits nothing. -/
theorem build_documented_declaration (lines : List String) (options : Options) (depth : Nat)
    (node : Node) (compiled : List String) (kstr : String) (range : SourceRange)
    (formatted comment : String)
    (hs : decl_str node.kind = some kstr)
    (hv : (!options.include_private && node.access == Private) = false)
    (hm : (iscontainer node.kind &&
      node.decl_range.line_start != node.decl_range.line_end) = false)
    (hf : node.kind ≠ FieldDecl)
    (hd : node.doc_range = some range)
    (hp : parse_source lines node.decl_range.line_start node.decl_range.line_end 0 =
      some formatted)
    (hc : parse_comment lines range = some comment) :
    build_node lines options depth node compiled =
        some (compiled ++
          [snprintf 511 ((if depth = 0 then "##" else "###") ++ " " ++ kstr ++ " `"
              ++ c_str node.qualified_name ++ "`\n\n"),
            "```cpp\n",
            snprintf 511 (c_str formatted ++ (if node.kind = EnumConstantDecl then "" else ";")
              ++ "\n"),
            "```\n",
            snprintf 511 (c_str comment ++ "\n\n")]) ∧
      ('\x00' ∉ node.qualified_name.data → '\x00' ∉ formatted.data → '\x00' ∉ comment.data →
        ((if depth = 0 then "##" else "###") ++ " " ++ kstr ++ " `"
          ++ node.qualified_name ++ "`\n\n").data.length ≤ 510 →
        (formatted ++ (if node.kind = EnumConstantDecl then "" else ";")
          ++ "\n").data.length ≤ 510 →
        (comment ++ "\n\n").data.length ≤ 510 →
        build_node lines options depth node compiled =
          some (compiled ++
            [(if depth = 0 then "##" else "###") ++ " " ++ kstr ++ " `"
                ++ node.qualified_name ++ "`\n\n",
              "```cpp\n",
              formatted ++ (if node.kind = EnumConstantDecl then "" else ";") ++ "\n",
              "```\n",
              comment ++ "\n\n"])) ∧
      (∀ s : String, (snprintf 511 s).data = s.data.take 510) ∧
      (∀ n : Node, n.kind = node.kind → n.access = node.access →
        n.decl_range = node.decl_range → n.doc_range = none →
        build_node lines options depth n compiled = some compiled) := by
  have hmain : build_node lines options depth node compiled =
      some (compiled ++
        [snprintf 511 ((if depth = 0 then "##" else "###") ++ " " ++ kstr ++ " `"
            ++ c_str node.qualified_name ++ "`\n\n"),
          "```cpp\n",
          snprintf 511 (c_str formatted ++ (if node.kind = EnumConstantDecl then "" else ";")
            ++ "\n"),
          "```\n",
          snprintf 511 (c_str comment ++ "\n\n")]) := by
    cases node with
    | mk name qn kind access dr doc children =>
      simp only [Node.kind, Node.decl_range, Node.doc_range, Node.access,
        Node.qualified_name] at hs hv hm hf hd hp hc ⊢
      subst hd
      unfold build_node
      simp [hs, hv, hm, hf, hc, append_decl, hp, append_fmt, append, Node.decl_range,
        Node.qualified_name, Node.kind]
  refine ⟨hmain, ?_, fun s => rfl, ?_⟩
  · intro h1 h2 h3 l1 l2 l3
    rw [hmain, c_str_no_nul _ h1, c_str_no_nul _ h2, c_str_no_nul _ h3,
      snprintf_short 511 _ l1, snprintf_short 511 _ l2, snprintf_short 511 _ l3]
  · intro n hk ha hr hdoc
    cases n with
    | mk name qn kind access dr doc children =>
      change kind = node.kind at hk
      change access = node.access at ha
      change dr = node.decl_range at hr
      change doc = none at hdoc
      subst hk ha hr hdoc
      unfold build_node
      simp [hs, hv, hm]

theorem build_documented_declaration_witness :
    build_node answer_lines ⟨false, true, false, "", ""⟩ 0 answer_node [] =
      some ([] ++ ["## Variable `answer`\n\n", "```cpp\n", "int answer;\n", "```\n",
        "The answer\n\n"]) :=
  (build_documented_declaration answer_lines ⟨false, true, false, "", ""⟩ 0 answer_node []
    "Variable" ⟨1, 1⟩ "int answer" "The answer" rfl rfl rfl (by decide) rfl (by decide)
    (by decide)).2.1 (by decide) (by decide) (by decide) (by decide) (by decide) (by decide)

/-! ## C24: a container parent that is not in the tree -/

/-- C24. When the parent of an event is a container kind whose qualified name
`find` does not find in the tree, and the qualified name of the event is not
bound at the root, `Header::insert` does not drop the event: it dereferences
the null pointer that `find` returns. The definition of a static member of a
nested struct after a redeclaration of the outer struct is such an event. -/
theorem insert_absent_parent (declarations : NodeMap) (parent_kind : CXCursorKind)
    (parent_name : QualifiedName) (node : Node)
    (hc : iscontainer parent_kind = true)
    (hq : NodeMap.lookup node.qualified_name declarations = none)
    (hp : find declarations parent_name = none) :
    insert declarations parent_kind parent_name node = none ∧
      (ingest_all [] (lost_parent_events.take 4)).map all_names = some ["S"] ∧
      ingest_all [] lost_parent_events = none := by
  refine ⟨?_, by decide, rfl⟩
  unfold insert
  rw [hq]
  simp only [isfunc_of_iscontainer parent_kind hc, hc, if_true, Bool.false_eq_true, if_false]
  exact find_update_none declarations parent_name _ hp

theorem insert_absent_parent_witness :
    insert lost_parent_tree StructDecl "S::Inner" lost_parent_event.node = none :=
  (insert_absent_parent lost_parent_tree StructDecl "S::Inner" lost_parent_event.node
    (by decide) rfl rfl).1

/-! ## C17: a function-local event that meets a root node of its name -/

/-- C17. An event whose parent is a function-like declaration must leave the
tree as it was, but `Header::insert` tests the root map before it tests the
parent: when the root binds the qualified name of the event to an undocumented
node, the call overwrites that entry with the node of the event, and `find`
returns the function-local node from then on. On a tree whose root does not
bind the name the same event is discarded. -/
theorem insert_function_parent_replaces_root (declarations : NodeMap)
    (parent_kind : CXCursorKind) (parent_name : QualifiedName) (node current : Node)
    (hf : isfunc parent_kind = true)
    (hl : NodeMap.lookup node.qualified_name declarations = some current)
    (hd : current.doc_range.isSome = false) :
    insert declarations parent_kind parent_name node =
        some (NodeMap.replace node.qualified_name node declarations) ∧
      NodeMap.lookup node.qualified_name
        (NodeMap.replace node.qualified_name node declarations) = some node ∧
      find (NodeMap.replace node.qualified_name node declarations) node.qualified_name =
        some node ∧
      ∀ other, NodeMap.lookup node.qualified_name other = none →
        insert other parent_kind parent_name node = some other := by
  have h1 := NodeMap.lookup_replace_same node.qualified_name node declarations current hl
  refine ⟨?_, h1, find_of_lookup _ _ _ h1, ?_⟩
  · unfold insert
    rw [hl]
    simp only [hd, Bool.false_eq_true, if_false]
    unfold NodeMap.assign
    rw [hl]
  · intro other ho
    unfold insert
    rw [ho]
    simp [hf]

theorem insert_function_parent_replaces_root_witness :
    (find local_tree "f::x").map Node.decl_range = some ⟨2, 2⟩ ∧
      insert local_tree FunctionDecl "f" local_event =
        some [("f::x", .mk "x" "f::x" VarDecl InvalidAccessSpecifier ⟨9, 9⟩ none [])] ∧
      (find (NodeMap.replace "f::x" local_event local_tree) "f::x").map Node.decl_range =
        some ⟨9, 9⟩ :=
  ⟨by decide,
    (insert_function_parent_replaces_root local_tree FunctionDecl "f" local_event
      (.mk "x" "f::x" VarDecl InvalidAccessSpecifier ⟨2, 2⟩ none []) (by decide) rfl rfl).1,
    by decide⟩

end pocdoc
